import Mathlib

/-!
Verification of the cwt-node consent-web-token core: the consent data model
(`vendor.js`, `consent.js`), the compression codec and consent mutation of
`token.js`, and the consent-resolution engine `hasConsent` of the historical
`token.js`.  JavaScript records are modelled as Lean structures; dynamic JSON
values as the `JsonValue` inductive; JavaScript `undefined` and thrown
`TypeError`s as explicit constructors.  Object identity (reference equality of
parsed JSON objects) is not modelled: key comparisons use structural equality,
which coincides with JavaScript `===` on the primitive ids the library works
with.
-/

namespace Cwt

mutual

/-- A parsed JSON value, extended with `jundef` for JavaScript `undefined`
(which `JSON.parse` never produces but property reads do).  Arrays and objects
use their own spine types so that equality is decidable. -/
inductive JsonValue where
  | jnull
  | jundef
  | jbool (b : Bool)
  | jnum (n : Int)
  | jstr (s : String)
  | jarr (elems : JsonArr)
  | jobj (fields : JsonObj)

/-- Spine of a JSON array. -/
inductive JsonArr where
  | nil
  | cons (hd : JsonValue) (tl : JsonArr)

/-- Spine of a JSON object: an ordered list of key/value fields. -/
inductive JsonObj where
  | nil
  | cons (key : String) (val : JsonValue) (tl : JsonObj)

end

deriving instance DecidableEq for JsonValue, JsonArr, JsonObj
deriving instance Repr for JsonValue, JsonArr, JsonObj

/-- The elements of a JSON array spine as a Lean list. -/
def JsonArr.toList : JsonArr → List JsonValue
  | .nil => []
  | .cons h t => h :: t.toList

/-- Build a JSON array spine from a Lean list. -/
def JsonArr.ofList : List JsonValue → JsonArr
  | [] => .nil
  | h :: t => .cons h (JsonArr.ofList t)

/-- The fields of a JSON object spine as a Lean association list. -/
def JsonObj.toList : JsonObj → List (String × JsonValue)
  | .nil => []
  | .cons k v t => (k, v) :: t.toList

/-- Build a JSON object spine from a Lean association list. -/
def JsonObj.ofList : List (String × JsonValue) → JsonObj
  | [] => .nil
  | (k, v) :: t => .cons k v (JsonObj.ofList t)

open JsonValue

/-- Shorthand: a JSON array from a Lean list. -/
def jarrL (l : List JsonValue) : JsonValue := jarr (JsonArr.ofList l)

/-- Shorthand: a JSON object from a Lean association list. -/
def jobjL (l : List (String × JsonValue)) : JsonValue := jobj (JsonObj.ofList l)

/-- JavaScript truthiness of a value. -/
def truthy : JsonValue → Bool
  | jnull => false
  | jundef => false
  | jbool b => b
  | jnum n => n != 0
  | jstr s => !s.isEmpty
  | jarr _ => true
  | jobj _ => true

/-- Property read `v[k]` in a context where the receiver is known not to be
`null`/`undefined`: the field of an object (first binding wins; `JSON.parse`
keeps keys unique), `undefined` for any other receiver. -/
def getPropD (v : JsonValue) (k : String) : JsonValue :=
  match v with
  | jobj fields => (fields.toList.lookup k).getD jundef
  | _ => jundef

/-- Result of a JavaScript computation that can throw. -/
inductive JSResult (α : Type) where
  | thrown
  | ok (val : α)
deriving DecidableEq, Repr

/-- Property read `v[k]` where the receiver may be `null`/`undefined`, in which
case JavaScript throws a `TypeError`. -/
def getProp : JsonValue → String → JSResult JsonValue
  | jnull, _ => .thrown
  | jundef, _ => .thrown
  | v, k => .ok (getPropD v k)

/-- `for (const i in x) ... x[i]` over an arbitrary value: the elements of an
array, the characters of a string, the field values of an object, and nothing
for any other value. -/
def enumElems : JsonValue → List JsonValue
  | jarr a => a.toList
  | jstr s => s.toList.map (fun ch => jstr (String.singleton ch))
  | jobj fields => fields.toList.map Prod.snd
  | _ => []

/-! ## The consent matrix carried by a token (token.js)

The current `token.js` stores consents as plain objects
`{ purpose, vendors: [{ id, status }] }`.  The model is parametric in the type
`κ` of purpose/vendor identifiers: the typed development instantiates
`κ := String`, the wire-level decoder instantiates `κ := JsonValue`. -/

/-- A per-vendor consent entry `{ id, status }`; `status` is `none` while the
JavaScript field is `undefined`. -/
structure GVendor (κ : Type) where
  id : κ
  status : Option Bool
deriving DecidableEq, Repr

/-- A consent entry `{ purpose, vendors }`. -/
structure GConsent (κ : Type) where
  purpose : κ
  vendors : List (GVendor κ)
deriving DecidableEq, Repr

variable {κ : Type} [DecidableEq κ]

/-- The vendor-list part of `CWT.setConsentStatus` (token.js 236-248): update
the first vendor whose id matches, or append a fresh `{ id, status }`. -/
def setVendorStatus (status : Bool) (vendorId : κ) : List (GVendor κ) → List (GVendor κ)
  | [] => [⟨vendorId, some status⟩]
  | v :: rest =>
    if v.id = vendorId then { v with status := some status } :: rest
    else v :: setVendorStatus status vendorId rest

/-- `CWT.setConsentStatus` (token.js 223-249): find-or-create the consent for
`purpose` (first match), then find-or-create the vendor inside it and overwrite
its status. -/
def setConsentStatus (status : Bool) (purpose vendorId : κ) :
    List (GConsent κ) → List (GConsent κ)
  | [] => [⟨purpose, [⟨vendorId, some status⟩]⟩]
  | c :: rest =>
    if c.purpose = purpose then
      { c with vendors := setVendorStatus status vendorId c.vendors } :: rest
    else c :: setConsentStatus status purpose vendorId rest

/-- One inner loop of `CWTFromCompressedJSON` (token.js 362-380): set the same
status for one purpose across a list of vendor ids. -/
def setVendorsFor (status : Bool) (purpose : κ) (vendorIds : List κ)
    (t : List (GConsent κ)) : List (GConsent κ) :=
  vendorIds.foldl (fun acc vid => setConsentStatus status purpose vid acc) t

/-- The reconstruction loops of `CWTFromCompressedJSON` (token.js 355-409):
enabled purposes get `true` for enabled vendors and `false` for disabled ones;
disabled purposes get `false` for every vendor. -/
def fromCompressedLists (pe pd ve vd : List κ) : List (GConsent κ) :=
  let afterEnabled :=
    pe.foldl (fun acc p => setVendorsFor false p vd (setVendorsFor true p ve acc)) []
  pd.foldl (fun acc p => setVendorsFor false p vd (setVendorsFor false p ve acc)) afterEnabled

/-- The vendor row the decoder materializes under an enabled purpose. -/
def enabledRow (ve vd : List κ) : List (GVendor κ) :=
  ve.map (fun v => ⟨v, some true⟩) ++ vd.map (fun v => ⟨v, some false⟩)

/-- The vendor row the decoder materializes under a disabled purpose. -/
def disabledRow (ve vd : List κ) : List (GVendor κ) :=
  ve.map (fun v => ⟨v, some false⟩) ++ vd.map (fun v => ⟨v, some false⟩)

/-- The canonical cross-product token: one consent per purpose, enabled
purposes first, each row listing enabled vendors before disabled ones. -/
def canonicalToken (pe pd ve vd : List κ) : List (GConsent κ) :=
  pe.map (fun p => ⟨p, enabledRow ve vd⟩) ++ pd.map (fun p => ⟨p, disabledRow ve vd⟩)

/-- The status recorded in a token for a (purpose, vendor) pair: the status
field of the first vendor entry with that id under the first consent with that
purpose; `none` when either is absent. -/
def recordedStatus (t : List (GConsent κ)) (purpose vendorId : κ) : Option (Option Bool) :=
  match t.find? (fun c => decide (c.purpose = purpose)) with
  | none => none
  | some c =>
    match c.vendors.find? (fun v => decide (v.id = vendorId)) with
    | none => none
    | some v => some v.status

/-! ## The compression encoder `CWT.toCompressedJSON` (token.js 99-191)

Only the `purposes`/`vendors` computation (lines 119-188) is modelled; the
verbatim copy of the metadata fields and the final `JSON.stringify` are not.
The single JavaScript pass is split into independent pure passes computing the
same outputs; the dead `vendorsByPurpose` store (never read) is omitted. -/

/-- `disabledPurpose` after the vendor loop (token.js 132-151): true iff every
vendor entry has `status === false`. -/
def consentAllFalse (c : GConsent κ) : Bool :=
  c.vendors.all (fun v => decide (v.status = some false))

/-- The purpose classification loop (token.js 123-159): each consent pushes its
purpose onto `purposes.enabled` or `purposes.disabled` in list order. -/
def purposesSplit : List (GConsent κ) → List κ × List κ
  | [] => ([], [])
  | c :: rest =>
    let r := purposesSplit rest
    if consentAllFalse c then (r.1, c.purpose :: r.2) else (c.purpose :: r.1, r.2)

/-- The per-vendor map `statusByVendor[id].purposes`. -/
abbrev StatusMap (κ : Type) := List (κ × Option Bool)

/-- The `statusByVendor` store: vendor ids in order of first appearance. -/
abbrev VendorMap (κ : Type) := List (κ × StatusMap κ)

/-- `purposes[purpose] = status`: overwrite in place or append. -/
def mapSet (k : κ) (val : Option Bool) : StatusMap κ → StatusMap κ
  | [] => [(k, val)]
  | (k', v') :: rest => if k' = k then (k, val) :: rest else (k', v') :: mapSet k val rest

/-- Read `purposes[purpose]`: `none` when the key is absent (`undefined`). -/
def mapLookup (k : κ) : StatusMap κ → Option (Option Bool)
  | [] => none
  | (k', v) :: rest => if k' = k then some v else mapLookup k rest

/-- token.js 142-149: create the `statusByVendor` entry on first sight, then
record `purposes[purpose] = vendor.status`. -/
def vmapRecord (vid purpose : κ) (st : Option Bool) : VendorMap κ → VendorMap κ
  | [] => [(vid, [(purpose, st)])]
  | (k, m) :: rest =>
    if k = vid then (k, mapSet purpose st m) :: rest
    else (k, m) :: vmapRecord vid purpose st rest

/-- Record one consent's vendor entries into the `statusByVendor` store. -/
def recordConsent (m : VendorMap κ) (c : GConsent κ) : VendorMap κ :=
  c.vendors.foldl (fun acc v => vmapRecord v.id c.purpose v.status acc) m

/-- The `statusByVendor` store after the purpose loop (token.js 119-151). -/
def statusByVendor (consents : List (GConsent κ)) : VendorMap κ :=
  consents.foldl recordConsent []

/-- `enabledVendor` after the inner purpose loop (token.js 170-181): true iff
the recorded status is strictly `true` under every enabled purpose. -/
def vendorEnabled (enabledPurposes : List κ) (m : StatusMap κ) : Bool :=
  enabledPurposes.all (fun p => decide (mapLookup p m = some (some true)))

/-- The vendor classification loop (token.js 163-188): each recorded vendor id
is pushed onto `vendors.enabled` or `vendors.disabled`. -/
def vendorsSplit (enabledPurposes : List κ) : VendorMap κ → List κ × List κ
  | [] => ([], [])
  | (vid, m) :: rest =>
    let r := vendorsSplit enabledPurposes rest
    if vendorEnabled enabledPurposes m then (vid :: r.1, r.2) else (r.1, vid :: r.2)

/-- The four id lists of a compressed token. -/
structure Compressed (κ : Type) where
  purposesEnabled : List κ
  purposesDisabled : List κ
  vendorsEnabled : List κ
  vendorsDisabled : List κ
deriving DecidableEq, Repr

/-- `CWT.toCompressedJSON` restricted to its `purposes`/`vendors` output. -/
def toCompressedLists (consents : List (GConsent κ)) : Compressed κ :=
  let ps := purposesSplit consents
  let vs := vendorsSplit ps.1 (statusByVendor consents)
  ⟨ps.1, ps.2, vs.1, vs.2⟩

/-! ## The class-based data model (vendor.js, consent.js) and the resolution
engine of the historical token.js -/

/-- `!x` on an optional string argument: true for an absent argument and for
the empty string (both falsy in JavaScript). -/
def strOptFalsy : Option String → Bool
  | none => true
  | some s => s.isEmpty

/-- The `Vendor` class (vendor.js): an id and a scope list.  Scopes are kept as
raw JSON values because `fromObject` takes the `scopes` array verbatim. -/
structure Vendor where
  id : String
  scopes : List JsonValue
deriving DecidableEq, Repr

/-- `Vendor.hasScope(scopeId, global = true)` (vendor.js 44-51). -/
def Vendor.hasScope (v : Vendor) (scopeId : String) (globalMatch : Bool := true) : Bool :=
  if globalMatch && v.scopes.contains (jstr "*") then true
  else v.scopes.contains (jstr scopeId)

/-- `Vendor.addScope(scopeId)` (vendor.js 32-42): no-op on a falsy id or a
scope already present, otherwise push at the end. -/
def Vendor.addScope (v : Vendor) (scopeId : Option String) : Vendor :=
  if strOptFalsy scopeId then v
  else
    let sid := jstr (scopeId.getD "")
    if v.scopes.contains sid then v
    else { v with scopes := v.scopes ++ [sid] }

/-- `Vendor.fromObject` (vendor.js 14-30): a vendor only when `object.id` is a
non-empty string; `scopes` is the array taken verbatim, else empty. -/
def Vendor.fromObject (object : JsonValue) : Option Vendor :=
  if !truthy object then none
  else
    match getPropD object "id" with
    | jstr s =>
      if s.isEmpty then none
      else
        some ⟨s, match getPropD object "scopes" with | jarr a => a.toList | _ => []⟩
    | _ => none

/-- The `Consent` class (consent.js) as used by the resolution engine: a
purpose and a list of vendors. -/
structure Consent where
  purpose : String
  vendors : List Vendor
deriving DecidableEq, Repr

/-- `Consent.getVendor(id)` (consent.js 22-24): exact-match lookup. -/
def Consent.getVendor (c : Consent) (id : String) : Option Vendor :=
  c.vendors.find? (fun v => v.id == id)

/-- `Consent.fromObject` output shape: the constructor maps `object.vendors`
through `Vendor.fromObject` without filtering, so rejected entries stay in the
list as `none` (JavaScript `null`). -/
structure ConsentRaw where
  purpose : String
  vendors : List (Option Vendor)
deriving DecidableEq, Repr

/-- `Consent.fromObject` (consent.js 26-42) composed with the `Consent`
constructor (consent.js 4-7). -/
def Consent.fromObject (object : JsonValue) : Option ConsentRaw :=
  if !truthy object then none
  else
    match getPropD object "purpose" with
    | jstr s =>
      if s.isEmpty then none
      else
        some ⟨s, (match getPropD object "vendors" with
                   | jarr a => a.toList
                   | _ => []).map Vendor.fromObject⟩
    | _ => none

/-- `CWT.hasConsent` of the historical token.js (lines 162-197), acting on the
token's consent list. -/
def hasConsent (consents : List Consent) (purpose : String)
    (vendorId : Option String := none) (scopeId : Option String := none) : Bool :=
  match consents.find? (fun c => c.purpose == purpose) with
  | none => false
  | some consent =>
    if strOptFalsy vendorId then true
    else
      match (consent.getVendor (vendorId.getD "")).orElse
          (fun _ => consent.getVendor "*") with
      | none => false
      | some vendor =>
        if strOptFalsy scopeId then true
        else vendor.hasScope (scopeId.getD "") false

/-! ## The parse functions of token.js -/

/-- What reaches the body of a parse function: a falsy input string, a string
`JSON.parse` throws on, or the parsed value. -/
inductive ParseInput where
  | emptyInput
  | malformed
  | parsed (value : JsonValue)
deriving DecidableEq, Repr

/-- A token built by `CWTFromJSON`: the raw consents value and the metadata
fields, with `version` fixed by the constructor. -/
structure CWT where
  issuer : JsonValue
  user_id : JsonValue
  user_id_type : JsonValue
  user_id_hash_method : JsonValue
  consents : JsonValue
  version : Nat
deriving DecidableEq, Repr

/-- `x || dflt`. -/
def jsOr (v dflt : JsonValue) : JsonValue := if truthy v then v else dflt

/-- The `CWT` constructor (token.js 25-69): falsy content becomes `{}`, fields
default via `|| null`, `consents` via `|| []`, and `version` is set to `1`
unconditionally — a `version` carried by the content is never read. -/
def mkCWT (tokenContent : JsonValue) : CWT :=
  let c := if truthy tokenContent then tokenContent else jobj JsonObj.nil
  { issuer := jsOr (getPropD c "issuer") jnull
    user_id := jsOr (getPropD c "user_id") jnull
    user_id_type := jsOr (getPropD c "user_id_type") jnull
    user_id_hash_method := jsOr (getPropD c "user_id_hash_method") jnull
    consents := jsOr (getPropD c "consents") (jarr JsonArr.nil)
    version := 1 }

/-- `CWTFromJSON` (token.js 294-313). -/
def CWTFromJSON : ParseInput → JSResult (Option CWT)
  | .emptyInput => .ok none
  | .malformed => .ok none
  | .parsed v =>
    match getProp v "purposes" with
    | .thrown => .thrown
    | .ok p =>
      if truthy p then .ok none
      else
        match getProp v "vendors" with
        | .thrown => .thrown
        | .ok vs => if truthy vs then .ok none else .ok (some (mkCWT v))

/-- A token built by `CWTFromCompressedJSON`: here the consents list is the
structured matrix produced by the reconstruction loops. -/
structure CWTCompressed where
  issuer : JsonValue
  user_id : JsonValue
  user_id_type : JsonValue
  user_id_hash_method : JsonValue
  consents : List (GConsent JsonValue)
  version : Nat
deriving DecidableEq, Repr

/-- The `new CWT({...})` call of token.js 346-353 seen through the constructor:
`versionValue` is the wire object's `version`, passed in and then discarded
because the constructor always sets `1`. -/
def mkCWTCompressed (issuer uid uidType uidHash : JsonValue)
    (consents : List (GConsent JsonValue)) (versionValue : JsonValue) : CWTCompressed :=
  { issuer := jsOr issuer jnull
    user_id := jsOr uid jnull
    user_id_type := jsOr uidType jnull
    user_id_hash_method := jsOr uidHash jnull
    consents := consents
    version := 1 }

/-- `CWTFromCompressedJSON` (token.js 321-412): shape validation in source
order (`consents` truthy, or any of `purposes`, `vendors`,
`purposes.enabled/disabled`, `vendors.enabled/disabled` falsy, rejects), then
the reconstruction loops. -/
def CWTFromCompressedJSON : ParseInput → JSResult (Option CWTCompressed)
  | .emptyInput => .ok none
  | .malformed => .ok none
  | .parsed v =>
    match getProp v "consents" with
    | .thrown => .thrown
    | .ok cs =>
      if truthy cs then .ok none
      else
        let ps := getPropD v "purposes"
        if !truthy ps then .ok none
        else
          let vs := getPropD v "vendors"
          if !truthy vs then .ok none
          else
            let pe := getPropD ps "enabled"
            if !truthy pe then .ok none
            else
              let pd := getPropD ps "disabled"
              if !truthy pd then .ok none
              else
                let ve := getPropD vs "enabled"
                if !truthy ve then .ok none
                else
                  let vd := getPropD vs "disabled"
                  if !truthy vd then .ok none
                  else
                    .ok (some (mkCWTCompressed (getPropD v "issuer") (getPropD v "user_id")
                      (getPropD v "user_id_type") (getPropD v "user_id_hash_method")
                      (fromCompressedLists (enumElems pe) (enumElems pd)
                        (enumElems ve) (enumElems vd))
                      (getPropD v "version")))

/-- A token following the all-purposes-AND'd pattern (all statuses equal
`enabled(purpose) && enabled(vendor)` for the all-true classification) in
which each vendor is recorded under only one of the two purposes. -/
def patternCexToken : List (GConsent String) :=
  [⟨"p", [⟨"a", some true⟩]⟩, ⟨"q", [⟨"b", some true⟩]⟩]

/-- A full-matrix token: both purposes carry the same vendor id list. -/
def fullMatrixToken : List (GConsent String) :=
  [⟨"p", [⟨"a", some true⟩, ⟨"b", some false⟩]⟩,
   ⟨"q", [⟨"a", some true⟩, ⟨"b", some false⟩]⟩]

/-! ## Spine conversion lemmas -/

@[simp] theorem JsonArr.toListOfList (l : List JsonValue) : (JsonArr.ofList l).toList = l := by
  induction l with
  | nil => rfl
  | cons h t ih => simp [JsonArr.ofList, JsonArr.toList, ih]

@[simp] theorem JsonObj.toListOfListFields (l : List (String × JsonValue)) :
    (JsonObj.ofList l).toList = l := by
  induction l with
  | nil => rfl
  | cons h t ih => cases h; simp [JsonObj.ofList, JsonObj.toList, ih]

/-! ## Decoder lemmas: `setConsentStatus` and the reconstruction loops -/

section DecoderLemmas

variable {κ : Type} [DecidableEq κ]

theorem setVendorStatus_fresh (s : Bool) (vid : κ) (vs : List (GVendor κ))
    (h : ∀ v ∈ vs, v.id ≠ vid) :
    setVendorStatus s vid vs = vs ++ [⟨vid, some s⟩] := by
  induction vs with
  | nil => rfl
  | cons v rest ih =>
    have hv : v.id ≠ vid := h v (List.mem_cons_self _ _)
    simp only [setVendorStatus, if_neg hv, List.cons_append, List.cons.injEq, true_and]
    exact ih (fun w hw => h w (List.mem_cons_of_mem _ hw))

theorem setConsentStatus_fresh (s : Bool) (p vid : κ) (t : List (GConsent κ))
    (h : ∀ c ∈ t, c.purpose ≠ p) :
    setConsentStatus s p vid t = t ++ [⟨p, [⟨vid, some s⟩]⟩] := by
  induction t with
  | nil => rfl
  | cons c rest ih =>
    have hc : c.purpose ≠ p := h c (List.mem_cons_self _ _)
    simp only [setConsentStatus, if_neg hc, List.cons_append, List.cons.injEq, true_and]
    exact ih (fun d hd => h d (List.mem_cons_of_mem _ hd))

theorem setConsentStatus_append (s : Bool) (p vid : κ) (t₁ t₂ : List (GConsent κ))
    (h : ∀ c ∈ t₁, c.purpose ≠ p) :
    setConsentStatus s p vid (t₁ ++ t₂) = t₁ ++ setConsentStatus s p vid t₂ := by
  induction t₁ with
  | nil => rfl
  | cons c rest ih =>
    have hc : c.purpose ≠ p := h c (List.mem_cons_self _ _)
    simp only [List.cons_append, setConsentStatus, if_neg hc, List.cons.injEq, true_and]
    exact ih (fun d hd => h d (List.mem_cons_of_mem _ hd))

theorem setConsentStatus_hit (s : Bool) (p vid : κ) (t : List (GConsent κ))
    (vs : List (GVendor κ)) (h : ∀ c ∈ t, c.purpose ≠ p) :
    setConsentStatus s p vid (t ++ [⟨p, vs⟩]) = t ++ [⟨p, setVendorStatus s vid vs⟩] := by
  rw [setConsentStatus_append s p vid t _ h]
  simp [setConsentStatus]

@[simp] theorem setVendorsFor_nil (s : Bool) (p : κ) (t : List (GConsent κ)) :
    setVendorsFor s p [] t = t := rfl

theorem setVendorsFor_cons (s : Bool) (p : κ) (i : κ) (rest : List κ)
    (t : List (GConsent κ)) :
    setVendorsFor s p (i :: rest) t = setVendorsFor s p rest (setConsentStatus s p i t) := rfl

theorem setVendorsFor_row (s : Bool) (p : κ) (vids : List κ) (t : List (GConsent κ))
    (vs : List (GVendor κ)) (hp : ∀ c ∈ t, c.purpose ≠ p)
    (hfresh : ∀ i ∈ vids, ∀ w ∈ vs, w.id ≠ i) (hnd : vids.Nodup) :
    setVendorsFor s p vids (t ++ [⟨p, vs⟩]) =
      t ++ [⟨p, vs ++ vids.map (fun i => ⟨i, some s⟩)⟩] := by
  induction vids generalizing vs with
  | nil => simp
  | cons i rest ih =>
    have hfresh2 : ∀ j ∈ rest, ∀ w ∈ vs ++ [(⟨i, some s⟩ : GVendor κ)], w.id ≠ j := by
      intro j hj w hw
      rcases List.mem_append.1 hw with hw | hw
      · exact hfresh j (List.mem_cons_of_mem _ hj) w hw
      · rcases List.mem_singleton.1 hw with rfl
        show i ≠ j
        intro hij
        exact (List.nodup_cons.1 hnd).1 (hij ▸ hj)
    rw [setVendorsFor_cons, setConsentStatus_hit s p i t vs hp,
      setVendorStatus_fresh s i vs (fun w hw => hfresh i (List.mem_cons_self _ _) w hw),
      ih (vs ++ [(⟨i, some s⟩ : GVendor κ)]) hfresh2 (List.nodup_cons.1 hnd).2]
    simp

theorem setVendorsFor_create (s : Bool) (p : κ) (i : κ) (rest : List κ)
    (t : List (GConsent κ)) (hp : ∀ c ∈ t, c.purpose ≠ p) (hnd : (i :: rest).Nodup) :
    setVendorsFor s p (i :: rest) t =
      t ++ [⟨p, (i :: rest).map (fun j => ⟨j, some s⟩)⟩] := by
  have hfresh : ∀ j ∈ rest, ∀ w ∈ [(⟨i, some s⟩ : GVendor κ)], w.id ≠ j := by
    intro j hj w hw
    rcases List.mem_singleton.1 hw with rfl
    show i ≠ j
    intro hij
    exact (List.nodup_cons.1 hnd).1 (hij ▸ hj)
  rw [setVendorsFor_cons, setConsentStatus_fresh s p i t hp,
    setVendorsFor_row s p rest t [⟨i, some s⟩] hp hfresh (List.nodup_cons.1 hnd).2]
  simp

theorem phaseStep (s1 s2 : Bool) (p : κ) (ve vd : List κ) (t : List (GConsent κ))
    (hp : ∀ c ∈ t, c.purpose ≠ p) (hnd : (ve ++ vd).Nodup) (hne : ve ++ vd ≠ []) :
    setVendorsFor s2 p vd (setVendorsFor s1 p ve t) =
      t ++ [⟨p, ve.map (fun i => ⟨i, some s1⟩) ++ vd.map (fun i => ⟨i, some s2⟩)⟩] := by
  rcases List.nodup_append.1 hnd with ⟨hve, hvd, hdisj⟩
  cases ve with
  | nil =>
    cases vd with
    | nil => simp at hne
    | cons j rest =>
      simp only [setVendorsFor_nil, List.map_nil, List.nil_append]
      exact setVendorsFor_create s2 p j rest t hp hvd
  | cons i rest =>
    rw [setVendorsFor_create s1 p i rest t hp hve]
    cases vd with
    | nil => simp
    | cons j rest2 =>
      have hfresh : ∀ a ∈ j :: rest2,
          ∀ w ∈ (i :: rest).map (fun b => (⟨b, some s1⟩ : GVendor κ)), w.id ≠ a := by
        intro a ha w hw
        rcases List.mem_map.1 hw with ⟨b, hb, rfl⟩
        show b ≠ a
        intro hba
        exact hdisj hb (hba ▸ ha)
      rw [setVendorsFor_row s2 p (j :: rest2) t _ hp hfresh hvd]

theorem phaseFold (s1 s2 : Bool) (ps ve vd : List κ) (t : List (GConsent κ))
    (hnd : ps.Nodup) (hdisj : ∀ p ∈ ps, ∀ c ∈ t, c.purpose ≠ p)
    (hv : (ve ++ vd).Nodup) (hne : ve ++ vd ≠ []) :
    ps.foldl (fun acc p => setVendorsFor s2 p vd (setVendorsFor s1 p ve acc)) t =
      t ++ ps.map (fun p =>
        ⟨p, ve.map (fun i => ⟨i, some s1⟩) ++ vd.map (fun i => ⟨i, some s2⟩)⟩) := by
  induction ps generalizing t with
  | nil => simp
  | cons p rest ih =>
    have hdisj2 : ∀ q ∈ rest, ∀ c ∈ t ++
        [(⟨p, ve.map (fun i => (⟨i, some s1⟩ : GVendor κ)) ++
            vd.map (fun i => ⟨i, some s2⟩)⟩ : GConsent κ)], c.purpose ≠ q := by
      intro q hq c hc
      rcases List.mem_append.1 hc with hc | hc
      · exact hdisj q (List.mem_cons_of_mem _ hq) c hc
      · rcases List.mem_singleton.1 hc with rfl
        show p ≠ q
        intro hpq
        exact (List.nodup_cons.1 hnd).1 (hpq ▸ hq)
    rw [List.foldl_cons,
      phaseStep s1 s2 p ve vd t (hdisj p (List.mem_cons_self _ _)) hv hne,
      ih _ (List.nodup_cons.1 hnd).2 hdisj2]
    simp

theorem fromCompressedLists_canonical (pe pd ve vd : List κ)
    (hp : (pe ++ pd).Nodup) (hv : (ve ++ vd).Nodup) (hne : ve ++ vd ≠ []) :
    fromCompressedLists pe pd ve vd = canonicalToken pe pd ve vd := by
  rcases List.nodup_append.1 hp with ⟨hpe, hpd, hpdisj⟩
  unfold fromCompressedLists
  rw [phaseFold true false pe ve vd [] hpe (by simp) hv hne,
    phaseFold false false pd ve vd _ hpd ?_ hv hne]
  · simp [canonicalToken, enabledRow, disabledRow]
  · intro q hq c hc
    simp only [List.nil_append] at hc
    rcases List.mem_map.1 hc with ⟨b, hb, rfl⟩
    intro hcontra
    exact hpdisj (hcontra ▸ hb) hq

theorem find?_purpose_const_row (ps : List κ) (row : List (GVendor κ)) (p : κ)
    (h : p ∈ ps) :
    (ps.map (fun q => (⟨q, row⟩ : GConsent κ))).find?
      (fun c => decide (c.purpose = p)) = some ⟨p, row⟩ := by
  induction ps with
  | nil => cases h
  | cons q rest ih =>
    by_cases hqp : q = p
    · subst hqp
      simp
    · rcases List.mem_cons.1 h with rfl | hmem
      · exact absurd rfl hqp
      · rw [List.map_cons, List.find?_cons_of_neg _ (by simpa using hqp), ih hmem]

theorem find?_purpose_const_row_none (ps : List κ) (row : List (GVendor κ)) (p : κ)
    (h : p ∉ ps) :
    (ps.map (fun q => (⟨q, row⟩ : GConsent κ))).find?
      (fun c => decide (c.purpose = p)) = none := by
  rw [List.find?_eq_none]
  intro c hc
  rcases List.mem_map.1 hc with ⟨q, hq, rfl⟩
  simp only [decide_eq_true_eq]
  intro hqp
  exact h (hqp ▸ hq)

theorem find?_vendor_const (ids : List κ) (st : Option Bool) (v : κ) (h : v ∈ ids) :
    (ids.map (fun i => (⟨i, st⟩ : GVendor κ))).find?
      (fun w => decide (w.id = v)) = some ⟨v, st⟩ := by
  induction ids with
  | nil => cases h
  | cons i rest ih =>
    by_cases hiv : i = v
    · subst hiv
      simp
    · rcases List.mem_cons.1 h with rfl | hmem
      · exact absurd rfl hiv
      · rw [List.map_cons, List.find?_cons_of_neg _ (by simpa using hiv), ih hmem]

theorem find?_vendor_const_none (ids : List κ) (st : Option Bool) (v : κ) (h : v ∉ ids) :
    (ids.map (fun i => (⟨i, st⟩ : GVendor κ))).find?
      (fun w => decide (w.id = v)) = none := by
  rw [List.find?_eq_none]
  intro w hw
  rcases List.mem_map.1 hw with ⟨i, hi, rfl⟩
  simp only [decide_eq_true_eq]
  intro hiv
  exact h (hiv ▸ hi)

theorem recordedStatus_canonical (pe pd ve vd : List κ)
    (hp : (pe ++ pd).Nodup) (hv : (ve ++ vd).Nodup)
    (p v : κ) (hpm : p ∈ pe ++ pd) (hvm : v ∈ ve ++ vd) :
    recordedStatus (canonicalToken pe pd ve vd) p v =
      some (some (decide (p ∈ pe) && decide (v ∈ ve))) := by
  rcases List.nodup_append.1 hp with ⟨-, -, hpdisj⟩
  rcases List.nodup_append.1 hv with ⟨-, -, hvdisj⟩
  unfold recordedStatus canonicalToken
  rcases List.mem_append.1 hpm with hpe | hpd
  · rw [List.find?_append, find?_purpose_const_row pe (enabledRow ve vd) p hpe]
    unfold enabledRow
    rcases List.mem_append.1 hvm with hve | hvd
    · rw [Option.or_some]
      simp only
      rw [List.find?_append, find?_vendor_const ve (some true) v hve, Option.or_some,
        decide_eq_true hpe, decide_eq_true hve]
      rfl
    · have hvne : v ∉ ve := fun hmem => hvdisj hmem hvd
      rw [Option.or_some]
      simp only
      rw [List.find?_append, find?_vendor_const_none ve (some true) v hvne, Option.none_or,
        find?_vendor_const vd (some false) v hvd, decide_eq_true hpe,
        decide_eq_false hvne]
      rfl
  · have hpne : p ∉ pe := fun hmem => hpdisj hmem hpd
    rw [List.find?_append, find?_purpose_const_row_none pe (enabledRow ve vd) p hpne,
      Option.none_or, find?_purpose_const_row pd (disabledRow ve vd) p hpd]
    unfold disabledRow
    simp only
    rw [decide_eq_false hpne]
    rcases List.mem_append.1 hvm with hve | hvd
    · rw [List.find?_append, find?_vendor_const ve (some false) v hve, Option.or_some]
      simp
    · have hvne : v ∉ ve := fun hmem => hvdisj hmem hvd
      rw [List.find?_append, find?_vendor_const_none ve (some false) v hvne, Option.none_or,
        find?_vendor_const vd (some false) v hvd]
      simp

end DecoderLemmas

theorem jstr_injective : Function.Injective JsonValue.jstr := by
  intro a b h
  injection h

/-- The compressed wire object built from four id arrays alone (no metadata,
no `consents` field). -/
def compressedWire (pe pd ve vd : List String) : JsonValue :=
  jobjL
    [("purposes", jobjL [("enabled", jarrL (pe.map jstr)),
                         ("disabled", jarrL (pd.map jstr))]),
     ("vendors", jobjL [("enabled", jarrL (ve.map jstr)),
                        ("disabled", jarrL (vd.map jstr))])]

theorem CWTFromCompressedJSON_wire (pe pd ve vd : List String) :
    CWTFromCompressedJSON (.parsed (compressedWire pe pd ve vd)) =
      .ok (some (mkCWTCompressed jundef jundef jundef jundef
        (fromCompressedLists (pe.map jstr) (pd.map jstr) (ve.map jstr) (vd.map jstr))
        jundef)) := by
  show JSResult.ok (some (mkCWTCompressed jundef jundef jundef jundef
    (fromCompressedLists (JsonArr.ofList (pe.map jstr)).toList
      (JsonArr.ofList (pd.map jstr)).toList (JsonArr.ofList (ve.map jstr)).toList
      (JsonArr.ofList (vd.map jstr)).toList) jundef)) = _
  rw [JsonArr.toListOfList, JsonArr.toListOfList, JsonArr.toListOfList,
    JsonArr.toListOfList]

section EncoderLemmas

variable {κ : Type} [DecidableEq κ]

omit [DecidableEq κ] in
theorem consentAllFalse_iff (c : GConsent κ) :
    consentAllFalse c = true ↔ ∀ v ∈ c.vendors, v.status = some false := by
  simp [consentAllFalse, List.all_eq_true]

omit [DecidableEq κ] in
theorem purposesSplit_eq (l : List (GConsent κ)) :
    purposesSplit l =
      ((l.filter (fun c => !consentAllFalse c)).map GConsent.purpose,
       (l.filter consentAllFalse).map GConsent.purpose) := by
  induction l with
  | nil => rfl
  | cons c rest ih =>
    by_cases h : consentAllFalse c = true
    · simp [purposesSplit, h, ih, List.filter_cons]
    · simp only [Bool.not_eq_true] at h
      simp [purposesSplit, h, ih, List.filter_cons]

theorem vendorsSplit_eq (ep : List κ) (m : VendorMap κ) :
    vendorsSplit ep m =
      ((m.filter (fun kv => vendorEnabled ep kv.2)).map Prod.fst,
       (m.filter (fun kv => !vendorEnabled ep kv.2)).map Prod.fst) := by
  induction m with
  | nil => rfl
  | cons kv rest ih =>
    obtain ⟨vid, sm⟩ := kv
    by_cases h : vendorEnabled ep sm = true
    · simp [vendorsSplit, h, ih, List.filter_cons]
    · simp only [Bool.not_eq_true] at h
      simp [vendorsSplit, h, ih, List.filter_cons]

theorem vendorEnabled_iff (ep : List κ) (m : StatusMap κ) :
    vendorEnabled ep m = true ↔ ∀ p ∈ ep, mapLookup p m = some (some true) := by
  simp [vendorEnabled, List.all_eq_true]

theorem vendorsSplit_fst (ep : List κ) (m : VendorMap κ) :
    (vendorsSplit ep m).1 =
      (m.filter (fun kv => vendorEnabled ep kv.2)).map Prod.fst := by
  rw [vendorsSplit_eq]

theorem vendorsSplit_snd (ep : List κ) (m : VendorMap κ) :
    (vendorsSplit ep m).2 =
      (m.filter (fun kv => !vendorEnabled ep kv.2)).map Prod.fst := by
  rw [vendorsSplit_eq]

theorem vmapRecord_keys (vid p : κ) (st : Option Bool) (m : VendorMap κ) :
    (vmapRecord vid p st m).map Prod.fst =
      if vid ∈ m.map Prod.fst then m.map Prod.fst else m.map Prod.fst ++ [vid] := by
  induction m with
  | nil => simp [vmapRecord]
  | cons kv rest ih =>
    obtain ⟨k, sm⟩ := kv
    by_cases hk : k = vid
    · subst hk
      simp [vmapRecord]
    · simp only [vmapRecord, if_neg hk, List.map_cons, ih]
      by_cases hmem : vid ∈ rest.map Prod.fst
      · rw [if_pos hmem, if_pos (List.mem_cons_of_mem _ hmem)]
      · rw [if_neg hmem, if_neg ?_, List.cons_append]
        intro hc
        rcases List.mem_cons.1 hc with h1 | h1
        · exact hk h1.symm
        · exact hmem h1

theorem keys_nodup_vmapRecord (vid p : κ) (st : Option Bool) (m : VendorMap κ)
    (h : (m.map Prod.fst).Nodup) : ((vmapRecord vid p st m).map Prod.fst).Nodup := by
  rw [vmapRecord_keys]
  by_cases hmem : vid ∈ m.map Prod.fst
  · simpa [hmem]
  · simp [hmem, h, List.nodup_append]

theorem keys_nodup_recordConsent (c : GConsent κ) (m : VendorMap κ)
    (h : (m.map Prod.fst).Nodup) : ((recordConsent m c).map Prod.fst).Nodup := by
  unfold recordConsent
  generalize c.vendors = vs
  induction vs generalizing m with
  | nil => simpa
  | cons v rest ih =>
    rw [List.foldl_cons]
    exact ih _ (keys_nodup_vmapRecord _ _ _ _ h)

theorem statusByVendor_keys_nodup (cs : List (GConsent κ)) :
    ((statusByVendor cs).map Prod.fst).Nodup := by
  unfold statusByVendor
  have hgen : ∀ m : VendorMap κ, (m.map Prod.fst).Nodup →
      ((cs.foldl recordConsent m).map Prod.fst).Nodup := by
    induction cs with
    | nil => intro m h; simpa
    | cons c rest ih =>
      intro m h
      rw [List.foldl_cons]
      exact ih _ (keys_nodup_recordConsent c m h)
  exact hgen [] (by simp)

theorem vmapRecord_keys_mem (x vid p : κ) (st : Option Bool) (m : VendorMap κ) :
    x ∈ (vmapRecord vid p st m).map Prod.fst ↔ x ∈ m.map Prod.fst ∨ x = vid := by
  rw [vmapRecord_keys]
  by_cases hmem : vid ∈ m.map Prod.fst
  · rw [if_pos hmem]
    constructor
    · exact Or.inl
    · rintro (h | rfl)
      · exact h
      · exact hmem
  · rw [if_neg hmem]
    simp

theorem recordConsent_keys_mem (x : κ) (c : GConsent κ) (m : VendorMap κ) :
    x ∈ (recordConsent m c).map Prod.fst ↔
      x ∈ m.map Prod.fst ∨ ∃ v ∈ c.vendors, v.id = x := by
  unfold recordConsent
  generalize c.vendors = vs
  induction vs generalizing m with
  | nil => simp
  | cons v rest ih =>
    rw [List.foldl_cons, ih, vmapRecord_keys_mem]
    constructor
    · rintro ((h | rfl) | ⟨w, hw, rfl⟩)
      · exact Or.inl h
      · exact Or.inr ⟨v, List.mem_cons_self _ _, rfl⟩
      · exact Or.inr ⟨w, List.mem_cons_of_mem _ hw, rfl⟩
    · rintro (h | ⟨w, hw, rfl⟩)
      · exact Or.inl (Or.inl h)
      · rcases List.mem_cons.1 hw with rfl | hw2
        · exact Or.inl (Or.inr rfl)
        · exact Or.inr ⟨w, hw2, rfl⟩

theorem statusByVendor_keys_mem (cs : List (GConsent κ)) (x : κ) :
    x ∈ (statusByVendor cs).map Prod.fst ↔ ∃ c ∈ cs, ∃ v ∈ c.vendors, v.id = x := by
  unfold statusByVendor
  have hgen : ∀ m : VendorMap κ, x ∈ (cs.foldl recordConsent m).map Prod.fst ↔
      x ∈ m.map Prod.fst ∨ ∃ c ∈ cs, ∃ v ∈ c.vendors, v.id = x := by
    induction cs with
    | nil => simp
    | cons c rest ih =>
      intro m
      rw [List.foldl_cons, ih, recordConsent_keys_mem]
      constructor
      · rintro ((h | h) | ⟨d, hd, hv⟩)
        · exact Or.inl h
        · exact Or.inr ⟨c, List.mem_cons_self _ _, h⟩
        · exact Or.inr ⟨d, List.mem_cons_of_mem _ hd, hv⟩
      · rintro (h | ⟨d, hd, hv⟩)
        · exact Or.inl (Or.inl h)
        · rcases List.mem_cons.1 hd with rfl | hd2
          · exact Or.inl (Or.inr hv)
          · exact Or.inr ⟨d, hd2, hv⟩
  simpa using hgen []

omit [DecidableEq κ] in
theorem mem_map_fst_filter_iff (m : VendorMap κ) (f : κ × StatusMap κ → Bool)
    (h : (m.map Prod.fst).Nodup) (kv : κ × StatusMap κ) (hkv : kv ∈ m) :
    kv.1 ∈ (m.filter f).map Prod.fst ↔ f kv = true := by
  constructor
  · intro hm
    rcases List.mem_map.1 hm with ⟨kv', hkv', heq⟩
    have hkv'm : kv' ∈ m := List.mem_of_mem_filter hkv'
    have : kv' = kv := List.inj_on_of_nodup_map h hkv'm hkv heq
    exact this ▸ (List.mem_filter.1 hkv').2
  · intro hf
    exact List.mem_map.2 ⟨kv, List.mem_filter.2 ⟨hkv, hf⟩, rfl⟩

end EncoderLemmas

/-- C2: `toCompressedJSON` classifies a consent entry as disabled iff every
vendor entry under it has status strictly `false` (vacuously so for an entry
with no vendors), classifies every other entry as enabled, and emits the
purposes into the enabled/disabled arrays in their original consent-list
order. -/
theorem C2_purpose_classification (consents : List (GConsent String)) :
    (toCompressedLists consents).purposesDisabled =
        (consents.filter consentAllFalse).map GConsent.purpose ∧
    (toCompressedLists consents).purposesEnabled =
        (consents.filter (fun c => !consentAllFalse c)).map GConsent.purpose ∧
    ∀ c : GConsent String,
      (consentAllFalse c = true ↔ ∀ v ∈ c.vendors, v.status = some false) ∧
      (c.vendors = [] → consentAllFalse c = true) := by
  refine ⟨?_, ?_, ?_⟩
  · show (purposesSplit consents).2 = _
    rw [purposesSplit_eq]
  · show (purposesSplit consents).1 = _
    rw [purposesSplit_eq]
  · intro c
    refine ⟨consentAllFalse_iff c, ?_⟩
    intro hnil
    rw [consentAllFalse_iff, hnil]
    intro v hv
    cases hv

/-- Witness for `C2_purpose_classification`: a purpose with no vendors and a
purpose whose single vendor has status `false` land in `disabled`, a purpose
with a `true` vendor lands in `enabled`, in list order. -/
theorem C2_purpose_classification_witness :
    (toCompressedLists [⟨"a", []⟩, ⟨"b", [⟨"v", some true⟩]⟩,
        ⟨"c", [⟨"v", some false⟩]⟩]).purposesDisabled = ["a", "c"] ∧
    (toCompressedLists [(⟨"a", []⟩ : GConsent String), ⟨"b", [⟨"v", some true⟩]⟩,
        ⟨"c", [⟨"v", some false⟩]⟩]).purposesEnabled = ["b"] ∧
    consentAllFalse (⟨"a", []⟩ : GConsent String) = true := by
  have h := C2_purpose_classification
    [⟨"a", []⟩, ⟨"b", [⟨"v", some true⟩]⟩, ⟨"c", [⟨"v", some false⟩]⟩]
  exact ⟨h.1.trans (by decide), h.2.1.trans (by decide), (h.2.2 ⟨"a", []⟩).2 rfl⟩

/-- C3: `toCompressedJSON` classifies a recorded vendor id as enabled iff its
recorded status is strictly `true` under every enabled purpose; a missing
recorded status under some enabled purpose forces it into `disabled`; with no
enabled purposes every vendor is (vacuously) enabled; the recorded vendor ids
are exactly the ids appearing under any purpose; and the classification only
reads the statuses recorded under enabled purposes. -/
theorem C3_vendor_classification (consents : List (GConsent String)) :
    (∀ kv ∈ statusByVendor consents,
      (kv.1 ∈ (toCompressedLists consents).vendorsEnabled ↔
        ∀ p ∈ (toCompressedLists consents).purposesEnabled,
          mapLookup p kv.2 = some (some true)) ∧
      (kv.1 ∈ (toCompressedLists consents).vendorsDisabled ↔
        ¬ ∀ p ∈ (toCompressedLists consents).purposesEnabled,
          mapLookup p kv.2 = some (some true)) ∧
      ((∃ p ∈ (toCompressedLists consents).purposesEnabled, mapLookup p kv.2 = none) →
        kv.1 ∈ (toCompressedLists consents).vendorsDisabled)) ∧
    ((toCompressedLists consents).purposesEnabled = [] →
      (toCompressedLists consents).vendorsDisabled = []) ∧
    (∀ x : String, x ∈ (statusByVendor consents).map Prod.fst ↔
      ∃ c ∈ consents, ∃ v ∈ c.vendors, v.id = x) ∧
    (∀ (ep : List String) (m m' : StatusMap String),
      (∀ p ∈ ep, mapLookup p m = mapLookup p m') →
        vendorEnabled ep m = vendorEnabled ep m') := by
  have hkeys := statusByVendor_keys_nodup consents
  have hve : (toCompressedLists consents).vendorsEnabled =
      ((statusByVendor consents).filter
        (fun kv => vendorEnabled (purposesSplit consents).1 kv.2)).map Prod.fst := by
    show (vendorsSplit _ _).1 = _
    rw [vendorsSplit_eq]
  have hvd : (toCompressedLists consents).vendorsDisabled =
      ((statusByVendor consents).filter
        (fun kv => !vendorEnabled (purposesSplit consents).1 kv.2)).map Prod.fst := by
    show (vendorsSplit _ _).2 = _
    rw [vendorsSplit_eq]
  have hpe : (toCompressedLists consents).purposesEnabled = (purposesSplit consents).1 := rfl
  refine ⟨?_, ?_, statusByVendor_keys_mem consents, ?_⟩
  · intro kv hkv
    refine ⟨?_, ?_, ?_⟩
    · rw [hve, hpe, mem_map_fst_filter_iff _ _ hkeys kv hkv, vendorEnabled_iff]
    · rw [hvd, hpe, mem_map_fst_filter_iff _ _ hkeys kv hkv, Bool.not_eq_true',
        ← vendorEnabled_iff]
      simp
    · intro ⟨p, hp, hnone⟩
      rw [hvd, mem_map_fst_filter_iff _ _ hkeys kv hkv]
      simp only [Bool.not_eq_true']
      rw [← Bool.not_eq_true, vendorEnabled_iff]
      intro hall
      rw [hall p (hpe ▸ hp)] at hnone
      cases hnone
  · intro hempty
    rw [hvd]
    rw [hpe] at hempty
    have : ∀ kv ∈ statusByVendor consents,
        ¬ (!vendorEnabled (purposesSplit consents).1 kv.2) = true := by
      intro kv _
      rw [hempty]
      simp [vendorEnabled]
    rw [List.filter_eq_nil_iff.2 this]
    rfl
  · intro ep m m' hsame
    rw [Bool.eq_iff_iff, vendorEnabled_iff, vendorEnabled_iff]
    constructor
    · intro hall p hp
      rw [← hsame p hp]
      exact hall p hp
    · intro hall p hp
      rw [hsame p hp]
      exact hall p hp

/-- Witness for `C3_vendor_classification` on a token where vendor `x` is
true under both purposes, `y` misses the second purpose, and `z` is false
under the first. -/
theorem C3_vendor_classification_witness :
    (toCompressedLists [⟨"p", [⟨"x", some true⟩, ⟨"z", some false⟩]⟩,
        ⟨"q", [⟨"x", some true⟩, ⟨"y", some true⟩]⟩]).vendorsEnabled = ["x"] ∧
    (toCompressedLists [(⟨"p", [⟨"x", some true⟩, ⟨"z", some false⟩]⟩ : GConsent String),
        ⟨"q", [⟨"x", some true⟩, ⟨"y", some true⟩]⟩]).vendorsDisabled = ["z", "y"] ∧
    (("x" : String) ∈ (statusByVendor [(⟨"p", [⟨"x", some true⟩, ⟨"z", some false⟩]⟩ :
        GConsent String), ⟨"q", [⟨"x", some true⟩, ⟨"y", some true⟩]⟩]).map Prod.fst ↔
      ∃ c ∈ [(⟨"p", [⟨"x", some true⟩, ⟨"z", some false⟩]⟩ : GConsent String),
        ⟨"q", [⟨"x", some true⟩, ⟨"y", some true⟩]⟩], ∃ v ∈ c.vendors, v.id = "x") := by
  refine ⟨by decide, by decide, ?_⟩
  exact (C3_vendor_classification [⟨"p", [⟨"x", some true⟩, ⟨"z", some false⟩]⟩,
    ⟨"q", [⟨"x", some true⟩, ⟨"y", some true⟩]⟩]).2.2.1 "x"

/-! ## Round-trip infrastructure: the encoder on full-matrix tokens -/

section RoundTripLemmas

variable {κ : Type} [DecidableEq κ]

theorem all_congr_mem {α : Type} (l : List α) (p q : α → Bool)
    (h : ∀ x ∈ l, p x = q x) : l.all p = l.all q := by
  induction l with
  | nil => rfl
  | cons x xs ih =>
    rw [List.all_cons, List.all_cons, h x (List.mem_cons_self _ _),
      ih (fun y hy => h y (List.mem_cons_of_mem _ hy))]

theorem all_not_eq_not_any {α : Type} (l : List α) (f : α → Bool) :
    l.all (fun x => !f x) = !l.any f := by
  induction l with
  | nil => rfl
  | cons x xs ih => simp [List.all_cons, List.any_cons, ih]

theorem any_const_and {α : Type} (l : List α) (b : Bool) (f : α → Bool) :
    l.any (fun x => b && f x) = (b && l.any f) := by
  induction l with
  | nil => cases b <;> rfl
  | cons x xs ih => simp [List.any_cons, ih, Bool.and_or_distrib_left]

theorem any_map_comp {α β : Type} (l : List α) (f : α → β) (p : β → Bool) :
    (l.map f).any p = l.any (fun x => p (f x)) := by
  induction l with
  | nil => rfl
  | cons x xs ih => simp [List.any_cons, ih]

omit [DecidableEq κ] in
theorem consentAllFalse_pattern (c : GConsent κ) (ep ev : κ → Bool)
    (hpat : ∀ v ∈ c.vendors, v.status = some (ep c.purpose && ev v.id)) :
    consentAllFalse c = !(ep c.purpose && (c.vendors.map GVendor.id).any ev) := by
  have h1 : consentAllFalse c = c.vendors.all (fun v => !(ep c.purpose && ev v.id)) := by
    rw [consentAllFalse]
    apply all_congr_mem
    intro v hv
    rw [hpat v hv]
    cases ep c.purpose && ev v.id <;> rfl
  rw [h1, all_not_eq_not_any, any_const_and, any_map_comp]

theorem mapSet_fresh (k : κ) (val : Option Bool) (m : StatusMap κ)
    (h : ∀ kv ∈ m, kv.1 ≠ k) : mapSet k val m = m ++ [(k, val)] := by
  induction m with
  | nil => rfl
  | cons kv rest ih =>
    obtain ⟨k', v'⟩ := kv
    have hk : k' ≠ k := h (k', v') (List.mem_cons_self _ _)
    simp only [mapSet, if_neg hk, List.cons_append, List.cons.injEq, true_and]
    exact ih (fun kv hkv => h kv (List.mem_cons_of_mem _ hkv))

theorem recordRow_skip (p : κ) (vs : List (GVendor κ)) (k : κ) (m₀ : StatusMap κ)
    (M : VendorMap κ) (h : ∀ v ∈ vs, v.id ≠ k) :
    vs.foldl (fun acc v => vmapRecord v.id p v.status acc) ((k, m₀) :: M) =
      (k, m₀) :: vs.foldl (fun acc v => vmapRecord v.id p v.status acc) M := by
  induction vs generalizing M with
  | nil => rfl
  | cons v rest ih =>
    have hk : ¬ k = v.id := fun he => (h v (List.mem_cons_self _ _)) he.symm
    rw [List.foldl_cons, List.foldl_cons,
      show vmapRecord v.id p v.status ((k, m₀) :: M) =
        (k, m₀) :: vmapRecord v.id p v.status M from by simp [vmapRecord, hk]]
    exact ih _ (fun w hw => h w (List.mem_cons_of_mem _ hw))

theorem recordRow_uniform (p : κ) (vs : List (GVendor κ)) (g : κ → StatusMap κ)
    (hnd : (vs.map GVendor.id).Nodup) :
    vs.foldl (fun acc v => vmapRecord v.id p v.status acc)
        (vs.map (fun v => (v.id, g v.id))) =
      vs.map (fun v => (v.id, mapSet p v.status (g v.id))) := by
  induction vs with
  | nil => rfl
  | cons v rest ih =>
    rw [List.map_cons] at hnd ⊢
    have h1 : v.id ∉ rest.map GVendor.id := (List.nodup_cons.1 hnd).1
    have hfresh : ∀ w ∈ rest, w.id ≠ v.id := by
      intro w hw he
      exact h1 (he ▸ List.mem_map.2 ⟨w, hw, rfl⟩)
    rw [List.foldl_cons,
      show vmapRecord v.id p v.status
          ((v.id, g v.id) :: rest.map (fun w => (w.id, g w.id))) =
        (v.id, mapSet p v.status (g v.id)) :: rest.map (fun w => (w.id, g w.id)) from by
          simp [vmapRecord],
      recordRow_skip p rest v.id _ _ hfresh, ih ((List.nodup_cons.1 hnd).2),
      List.map_cons]

theorem recordRow_empty (p : κ) (vs : List (GVendor κ))
    (hnd : (vs.map GVendor.id).Nodup) :
    vs.foldl (fun acc v => vmapRecord v.id p v.status acc) [] =
      vs.map (fun v => (v.id, [(p, v.status)])) := by
  induction vs with
  | nil => rfl
  | cons v rest ih =>
    rw [List.map_cons] at hnd ⊢
    have h1 : v.id ∉ rest.map GVendor.id := (List.nodup_cons.1 hnd).1
    have hfresh : ∀ w ∈ rest, w.id ≠ v.id := by
      intro w hw he
      exact h1 (he ▸ List.mem_map.2 ⟨w, hw, rfl⟩)
    rw [List.foldl_cons,
      show vmapRecord v.id p v.status ([] : VendorMap κ) = [(v.id, [(p, v.status)])] from
        rfl,
      recordRow_skip p rest v.id _ [] hfresh, ih ((List.nodup_cons.1 hnd).2)]

theorem foldRows_uniform (cs : List (GConsent κ)) (L : List κ) (ep ev : κ → Bool)
    (Q : List κ)
    (hL : ∀ c ∈ cs, c.vendors.map GVendor.id = L)
    (hpat : ∀ c ∈ cs, ∀ v ∈ c.vendors, v.status = some (ep c.purpose && ev v.id))
    (hLnd : L.Nodup)
    (hfresh : ∀ c ∈ cs, c.purpose ∉ Q)
    (hnd : (cs.map GConsent.purpose).Nodup) :
    cs.foldl recordConsent
        (L.map (fun i => (i, Q.map (fun q => (q, some (ep q && ev i)))))) =
      L.map (fun i =>
        (i, (Q ++ cs.map GConsent.purpose).map (fun q => (q, some (ep q && ev i))))) := by
  induction cs generalizing Q with
  | nil => simp
  | cons c rest ih =>
    have hLc := hL c (List.mem_cons_self _ _)
    have hpc := hpat c (List.mem_cons_self _ _)
    have hvnd : (c.vendors.map GVendor.id).Nodup := hLc ▸ hLnd
    have hM : L.map (fun i => (i, Q.map (fun q => (q, some (ep q && ev i))))) =
        c.vendors.map (fun v => (v.id, Q.map (fun q => (q, some (ep q && ev v.id))))) := by
      rw [← hLc, List.map_map]
      rfl
    rw [List.foldl_cons, hM,
      show recordConsent
          (c.vendors.map (fun v => (v.id, Q.map (fun q => (q, some (ep q && ev v.id)))))) c =
        c.vendors.foldl (fun acc v => vmapRecord v.id c.purpose v.status acc)
          (c.vendors.map (fun v =>
            (v.id, Q.map (fun q => (q, some (ep q && ev v.id)))))) from rfl,
      recordRow_uniform c.purpose c.vendors
        (fun i => Q.map (fun q => (q, some (ep q && ev i)))) hvnd]
    have hstep : c.vendors.map (fun v =>
        (v.id, mapSet c.purpose v.status (Q.map (fun q => (q, some (ep q && ev v.id)))))) =
        L.map (fun i =>
          (i, (Q ++ [c.purpose]).map (fun q => (q, some (ep q && ev i))))) := by
      rw [← hLc, List.map_map]
      apply List.map_congr_left
      intro v hv
      simp only [Function.comp_apply]
      rw [hpc v hv, mapSet_fresh _ _ _ ?_, List.map_append]
      · rfl
      · intro kv hkv
        rcases List.mem_map.1 hkv with ⟨q, hq, rfl⟩
        simp only
        intro he
        exact (hfresh c (List.mem_cons_self _ _)) (he ▸ hq)
    rw [hstep,
      ih (Q ++ [c.purpose]) (fun d hd => hL d (List.mem_cons_of_mem _ hd))
        (fun d hd => hpat d (List.mem_cons_of_mem _ hd)) ?_
        ((List.nodup_cons.1 (by simpa using hnd)).2)]
    · simp
    · intro d hd hmem
      rcases List.mem_append.1 hmem with hmem | hmem
      · exact hfresh d (List.mem_cons_of_mem _ hd) hmem
      · rcases List.mem_singleton.1 hmem with he
        have : c.purpose ∉ rest.map GConsent.purpose :=
          (List.nodup_cons.1 (by simpa using hnd)).1
        exact this (he ▸ List.mem_map.2 ⟨d, hd, rfl⟩)

theorem statusByVendor_pattern (cs : List (GConsent κ)) (L : List κ) (ep ev : κ → Bool)
    (hne : cs ≠ [])
    (hL : ∀ c ∈ cs, c.vendors.map GVendor.id = L)
    (hpat : ∀ c ∈ cs, ∀ v ∈ c.vendors, v.status = some (ep c.purpose && ev v.id))
    (hLnd : L.Nodup)
    (hnd : (cs.map GConsent.purpose).Nodup) :
    statusByVendor cs =
      L.map (fun i =>
        (i, (cs.map GConsent.purpose).map (fun q => (q, some (ep q && ev i))))) := by
  cases cs with
  | nil => cases hne rfl
  | cons c rest =>
    have hLc := hL c (List.mem_cons_self _ _)
    have hvnd : (c.vendors.map GVendor.id).Nodup := hLc ▸ hLnd
    have h1 : recordConsent [] c =
        L.map (fun i => (i, [c.purpose].map (fun q => (q, some (ep q && ev i))))) := by
      show c.vendors.foldl (fun acc v => vmapRecord v.id c.purpose v.status acc) [] = _
      rw [recordRow_empty c.purpose c.vendors hvnd, ← hLc, List.map_map]
      apply List.map_congr_left
      intro v hv
      simp only [Function.comp_apply, List.map_cons, List.map_nil]
      rw [hpat c (List.mem_cons_self _ _) v hv]
    show (c :: rest).foldl recordConsent [] = _
    rw [List.foldl_cons, h1,
      foldRows_uniform rest L ep ev [c.purpose]
        (fun d hd => hL d (List.mem_cons_of_mem _ hd))
        (fun d hd => hpat d (List.mem_cons_of_mem _ hd)) hLnd ?_
        ((List.nodup_cons.1 (by simpa using hnd)).2)]
    · simp
    · intro d hd hmem
      rcases List.mem_singleton.1 hmem with he
      have : c.purpose ∉ rest.map GConsent.purpose :=
        (List.nodup_cons.1 (by simpa using hnd)).1
      exact this (he ▸ List.mem_map.2 ⟨d, hd, rfl⟩)

theorem mapLookup_map (P : List κ) (σ : κ → Option Bool) (p : κ) :
    mapLookup p (P.map (fun q => (q, σ q))) = if p ∈ P then some (σ p) else none := by
  induction P with
  | nil => rfl
  | cons q rest ih =>
    rw [List.map_cons]
    by_cases hq : q = p
    · subst hq
      simp [mapLookup]
    · rw [show mapLookup p ((q, σ q) :: rest.map (fun r => (r, σ r))) =
          mapLookup p (rest.map (fun r => (r, σ r))) from by simp [mapLookup, hq], ih]
      by_cases hp : p ∈ rest
      · rw [if_pos hp, if_pos (List.mem_cons_of_mem _ hp)]
      · rw [if_neg hp, if_neg ?_]
        intro hmem
        rcases List.mem_cons.1 hmem with h1 | h1
        · exact hq h1.symm
        · exact hp h1

omit [DecidableEq κ] in
theorem filter_map_purpose (cs : List (GConsent κ)) (q : κ → Bool) :
    (cs.filter (fun c => q c.purpose)).map GConsent.purpose =
      (cs.map GConsent.purpose).filter q := by
  rw [List.filter_map]
  rfl

theorem toCompressedLists_pattern (cs : List (GConsent κ)) (L : List κ) (ep ev : κ → Bool)
    (hne : cs ≠ [])
    (hnd : (cs.map GConsent.purpose).Nodup)
    (hL : ∀ c ∈ cs, c.vendors.map GVendor.id = L)
    (hLnd : L.Nodup)
    (hpat : ∀ c ∈ cs, ∀ v ∈ c.vendors, v.status = some (ep c.purpose && ev v.id)) :
    toCompressedLists cs =
      ⟨(cs.map GConsent.purpose).filter (fun p => ep p && L.any ev),
       (cs.map GConsent.purpose).filter (fun p => !(ep p && L.any ev)),
       L.filter (fun i =>
         ((cs.map GConsent.purpose).filter (fun p => ep p && L.any ev)).isEmpty || ev i),
       L.filter (fun i =>
         !(((cs.map GConsent.purpose).filter (fun p => ep p && L.any ev)).isEmpty ||
           ev i))⟩ := by
  have hAF : ∀ c ∈ cs, consentAllFalse c = !(ep c.purpose && L.any ev) := by
    intro c hc
    rw [consentAllFalse_pattern c ep ev (hpat c hc), hL c hc]
  have hpeq : (purposesSplit cs).1 =
      (cs.map GConsent.purpose).filter (fun p => ep p && L.any ev) := by
    rw [purposesSplit_eq]
    show (cs.filter (fun c => !consentAllFalse c)).map GConsent.purpose = _
    rw [List.filter_congr (fun c hc => by rw [hAF c hc, Bool.not_not]),
      filter_map_purpose cs (fun p => ep p && L.any ev)]
  have hpdq : (purposesSplit cs).2 =
      (cs.map GConsent.purpose).filter (fun p => !(ep p && L.any ev)) := by
    rw [purposesSplit_eq]
    show (cs.filter consentAllFalse).map GConsent.purpose = _
    rw [List.filter_congr (fun c hc => hAF c hc),
      filter_map_purpose cs (fun p => !(ep p && L.any ev))]
  have hVM := statusByVendor_pattern cs L ep ev hne hL hpat hLnd hnd
  have hval : ∀ i : κ,
      vendorEnabled ((cs.map GConsent.purpose).filter (fun p => ep p && L.any ev))
        ((cs.map GConsent.purpose).map (fun q => (q, some (ep q && ev i)))) =
      (((cs.map GConsent.purpose).filter (fun p => ep p && L.any ev)).isEmpty ||
        ev i) := by
    intro i
    rw [Bool.eq_iff_iff, vendorEnabled_iff]
    constructor
    · intro hall
      rcases hcase : (cs.map GConsent.purpose).filter (fun p => ep p && L.any ev) with
        _ | ⟨p0, ps⟩
      · simp
      · have hp0 : p0 ∈ (cs.map GConsent.purpose).filter (fun p => ep p && L.any ev) := by
          rw [hcase]
          exact List.mem_cons_self _ _
        have h1 := hall p0 hp0
        rw [mapLookup_map, if_pos ((List.mem_filter.1 hp0).1)] at h1
        simp only [Option.some.injEq, Bool.and_eq_true] at h1
        simp [h1.2]
    · intro hor p hp
      rw [mapLookup_map, if_pos ((List.mem_filter.1 hp).1)]
      have hgp := (List.mem_filter.1 hp).2
      rw [Bool.and_eq_true] at hgp
      have hev : ev i = true := by
        rw [Bool.or_eq_true] at hor
        rcases hor with hemp | hev
        · rw [List.isEmpty_eq_true] at hemp
          rw [hemp] at hp
          cases hp
        · exact hev
      rw [hgp.1, hev]
      rfl
  have e3 : (vendorsSplit (purposesSplit cs).1 (statusByVendor cs)).1 =
      L.filter (fun i =>
        ((cs.map GConsent.purpose).filter (fun p => ep p && L.any ev)).isEmpty ||
          ev i) := by
    rw [vendorsSplit_fst, hVM, List.filter_map, List.map_map]
    rw [show (Prod.fst ∘ fun i =>
        (i, (cs.map GConsent.purpose).map (fun q => (q, some (ep q && ev i))))) =
        (id : κ → κ) from rfl, List.map_id]
    apply List.filter_congr
    intro i _
    show vendorEnabled (purposesSplit cs).1 _ = _
    rw [hpeq, hval i]
  have e4 : (vendorsSplit (purposesSplit cs).1 (statusByVendor cs)).2 =
      L.filter (fun i =>
        !(((cs.map GConsent.purpose).filter (fun p => ep p && L.any ev)).isEmpty ||
          ev i)) := by
    rw [vendorsSplit_snd, hVM, List.filter_map, List.map_map]
    rw [show (Prod.fst ∘ fun i =>
        (i, (cs.map GConsent.purpose).map (fun q => (q, some (ep q && ev i))))) =
        (id : κ → κ) from rfl, List.map_id]
    apply List.filter_congr
    intro i _
    show (!vendorEnabled (purposesSplit cs).1
        ((cs.map GConsent.purpose).map (fun q => (q, some (ep q && ev i))))) = _
    rw [hpeq, hval i]
  show Compressed.mk (purposesSplit cs).1 (purposesSplit cs).2
      (vendorsSplit (purposesSplit cs).1 (statusByVendor cs)).1
      (vendorsSplit (purposesSplit cs).1 (statusByVendor cs)).2 = _
  rw [e3, e4, hpeq, hpdq]

omit [DecidableEq κ] in
theorem canonicalToken_purposes (pe pd ve vd : List κ) :
    (canonicalToken pe pd ve vd).map GConsent.purpose = pe ++ pd := by
  simp [canonicalToken, List.map_map, Function.comp_def]

omit [DecidableEq κ] in
theorem enabledRow_ids (ve vd : List κ) : (enabledRow ve vd).map GVendor.id = ve ++ vd := by
  simp [enabledRow, List.map_map, Function.comp_def]

omit [DecidableEq κ] in
theorem disabledRow_ids (ve vd : List κ) :
    (disabledRow ve vd).map GVendor.id = ve ++ vd := by
  simp [disabledRow, List.map_map, Function.comp_def]

omit [DecidableEq κ] in
theorem canonicalToken_row_ids (pe pd ve vd : List κ) :
    ∀ c ∈ canonicalToken pe pd ve vd, c.vendors.map GVendor.id = ve ++ vd := by
  intro c hc
  rcases List.mem_append.1 hc with h | h <;> rcases List.mem_map.1 h with ⟨p, hp, rfl⟩
  · exact enabledRow_ids ve vd
  · exact disabledRow_ids ve vd

theorem canonicalToken_pattern (pe pd ve vd : List κ)
    (hpdisj : ∀ x ∈ pd, x ∉ pe) (hvdisj : ∀ x ∈ vd, x ∉ ve) :
    ∀ c ∈ canonicalToken pe pd ve vd, ∀ v ∈ c.vendors,
      v.status = some (decide (c.purpose ∈ pe) && decide (v.id ∈ ve)) := by
  intro c hc v hv
  rcases List.mem_append.1 hc with h | h <;> rcases List.mem_map.1 h with ⟨p, hp, rfl⟩
  · rcases List.mem_append.1 hv with h2 | h2 <;> rcases List.mem_map.1 h2 with ⟨i, hi, rfl⟩
    · simp [decide_eq_true hp, decide_eq_true hi]
    · simp [decide_eq_true hp, decide_eq_false (hvdisj i hi)]
  · rcases List.mem_append.1 hv with h2 | h2 <;> rcases List.mem_map.1 h2 with ⟨i, hi, rfl⟩
    · simp [decide_eq_false (hpdisj p hp)]
    · simp [decide_eq_false (hpdisj p hp)]

omit [DecidableEq κ] in
theorem filter_partition_nodup (l : List κ) (q : κ → Bool) (h : l.Nodup) :
    (l.filter q ++ l.filter (fun x => !q x)).Nodup := by
  rw [List.nodup_append]
  refine ⟨h.filter _, h.filter _, ?_⟩
  intro x hx hx2
  have h1 := (List.mem_filter.1 hx).2
  have h2 := (List.mem_filter.1 hx2).2
  rw [h1] at h2
  cases h2

omit [DecidableEq κ] in
theorem filter_partition_ne_nil (l : List κ) (q : κ → Bool) (h : l ≠ []) :
    l.filter q ++ l.filter (fun x => !q x) ≠ [] := by
  rcases l with _ | ⟨x, xs⟩
  · exact absurd rfl h
  intro hc
  rcases List.append_eq_nil.1 hc with ⟨h1, h2⟩
  by_cases hq : q x = true
  · have : x ∈ List.filter q (x :: xs) :=
      List.mem_filter.2 ⟨List.mem_cons_self _ _, hq⟩
    rw [h1] at this
    cases this
  · have hq' : (!q x) = true := by
      rw [eq_false_of_ne_true hq]
      rfl
    have : x ∈ List.filter (fun y => !q y) (x :: xs) :=
      List.mem_filter.2 ⟨List.mem_cons_self _ _, hq'⟩
    rw [h2] at this
    cases this

theorem filter_append_mem_left (l₁ l₂ : List κ) (hdisj : ∀ x ∈ l₂, x ∉ l₁) :
    (l₁ ++ l₂).filter (fun x => decide (x ∈ l₁)) = l₁ := by
  rw [List.filter_append,
    List.filter_eq_self.2 (fun a ha => decide_eq_true ha),
    List.filter_eq_nil_iff.2 ?_, List.append_nil]
  intro a ha hdec
  exact hdisj a ha (of_decide_eq_true hdec)

theorem filter_append_mem_right (l₁ l₂ : List κ) (hdisj : ∀ x ∈ l₂, x ∉ l₁) :
    (l₁ ++ l₂).filter (fun x => !decide (x ∈ l₁)) = l₂ := by
  rw [List.filter_append, List.filter_eq_nil_iff.2 ?_,
    List.filter_eq_self.2 ?_, List.nil_append]
  · intro a ha
    rw [decide_eq_false (hdisj a ha)]
    rfl
  · intro a ha hdec
    rw [decide_eq_true ha] at hdec
    cases hdec

theorem encode_canonicalToken (pe pd ve vd : List κ)
    (hpnd : (pe ++ pd).Nodup) (hvnd : (ve ++ vd).Nodup)
    (hne : pe ++ pd ≠ []) (hvne : ve ++ vd ≠ [])
    (hcompat1 : pe = [] → vd = []) (hcompat2 : pe ≠ [] → ve ≠ []) :
    toCompressedLists (canonicalToken pe pd ve vd) = ⟨pe, pd, ve, vd⟩ := by
  rcases List.nodup_append.1 hpnd with ⟨-, -, hpdisj⟩
  rcases List.nodup_append.1 hvnd with ⟨-, -, hvdisj⟩
  have hpdisj' : ∀ x ∈ pd, x ∉ pe := fun x hx hx2 => hpdisj hx2 hx
  have hvdisj' : ∀ x ∈ vd, x ∉ ve := fun x hx hx2 => hvdisj hx2 hx
  have hcne : canonicalToken pe pd ve vd ≠ [] := by
    intro hc
    apply hne
    have := canonicalToken_purposes pe pd ve vd
    rw [hc] at this
    exact this.symm
  have hchar := toCompressedLists_pattern (canonicalToken pe pd ve vd) (ve ++ vd)
    (fun p => decide (p ∈ pe)) (fun i => decide (i ∈ ve)) hcne
    (by rw [canonicalToken_purposes]; exact hpnd)
    (canonicalToken_row_ids pe pd ve vd) hvnd
    (canonicalToken_pattern pe pd ve vd hpdisj' hvdisj')
  rw [canonicalToken_purposes] at hchar
  beta_reduce at hchar
  -- the vendor universe is non-empty iff some enabled vendor exists
  have hA : ((ve ++ vd).any (fun i => decide (i ∈ ve))) = !ve.isEmpty := by
    rcases hve : ve with _ | ⟨v0, t⟩
    · rw [Bool.eq_iff_iff]
      simp [List.any_eq_true]
    · rw [Bool.eq_iff_iff]
      constructor
      · intro
        rfl
      · intro
        exact List.any_eq_true.2 ⟨v0, List.mem_append_left _ (List.mem_cons_self _ _),
          decide_eq_true (List.mem_cons_self _ _)⟩
  by_cases hveE : ve = []
  · -- an empty enabled-vendor list forces an empty matrix, against `hvne`
    exfalso
    have hpeE : pe = [] := by
      by_contra hpeNE
      exact (hcompat2 hpeNE) hveE
    exact hvne (by simp [hveE, hcompat1 hpeE])
  · have hAtrue : ((ve ++ vd).any (fun i => decide (i ∈ ve))) = true := by
      rw [hA, List.isEmpty_eq_false.2 hveE]
      rfl
    have hfe : (pe ++ pd).filter
        (fun p => decide (p ∈ pe) && ((ve ++ vd).any (fun i => decide (i ∈ ve)))) =
        pe := by
      rw [List.filter_congr (fun p _ => by rw [hAtrue, Bool.and_true]),
        filter_append_mem_left _ _ hpdisj']
    have hfd : (pe ++ pd).filter
        (fun p => !(decide (p ∈ pe) && ((ve ++ vd).any (fun i => decide (i ∈ ve))))) =
        pd := by
      rw [List.filter_congr (fun p _ => by rw [hAtrue, Bool.and_true]),
        filter_append_mem_right _ _ hpdisj']
    rw [hfe, hfd] at hchar
    by_cases hpeE : pe = []
    · have hvd0 : vd = [] := hcompat1 hpeE
      have h3 : (ve ++ vd).filter (fun i => pe.isEmpty || decide (i ∈ ve)) = ve := by
        subst hpeE
        rw [hvd0, List.append_nil]
        apply List.filter_eq_self.2
        intro a _
        rfl
      have h4 : (ve ++ vd).filter (fun i => !(pe.isEmpty || decide (i ∈ ve))) = [] := by
        subst hpeE
        apply List.filter_eq_nil_iff.2
        intro a _ hcon
        simp at hcon
      rw [hchar, h3, h4, hvd0]
    · have hiso : pe.isEmpty = false := List.isEmpty_eq_false.2 hpeE
      have h3 : (ve ++ vd).filter (fun i => pe.isEmpty || decide (i ∈ ve)) = ve := by
        rw [List.filter_congr (fun i _ => by rw [hiso, Bool.false_or]),
          filter_append_mem_left _ _ hvdisj']
      have h4 : (ve ++ vd).filter (fun i => !(pe.isEmpty || decide (i ∈ ve))) = vd := by
        rw [List.filter_congr (fun i _ => by rw [hiso, Bool.false_or]),
          filter_append_mem_right _ _ hvdisj']
      rw [hchar, h3, h4]

end RoundTripLemmas

/-- C4 (amended): for every token whose consent matrix is a full cross-product
matrix — pairwise-distinct purposes, every consent listing the same
duplicate-free non-empty vendor id list, and every vendor status equal to
`enabled(purpose) AND enabled(vendor)` for some classification — decoding the
output of `toCompressedJSON` with `CWTFromCompressedJSON` and encoding again
reproduces the first encoding exactly (so in particular the same
purposes.enabled/disabled and vendors.enabled/disabled membership). -/
theorem C4_compressed_roundtrip (cs : List (GConsent String)) (L : List String)
    (ep ev : String → Bool)
    (hnd : (cs.map GConsent.purpose).Nodup)
    (hL : ∀ c ∈ cs, c.vendors.map GVendor.id = L)
    (hLnd : L.Nodup) (hLne : L ≠ [])
    (hpat : ∀ c ∈ cs, ∀ v ∈ c.vendors, v.status = some (ep c.purpose && ev v.id)) :
    toCompressedLists (fromCompressedLists
        (toCompressedLists cs).purposesEnabled (toCompressedLists cs).purposesDisabled
        (toCompressedLists cs).vendorsEnabled (toCompressedLists cs).vendorsDisabled) =
      toCompressedLists cs := by
  by_cases hcs : cs = []
  · subst hcs
    rfl
  · have hchar := toCompressedLists_pattern cs L ep ev hcs hnd hL hLnd hpat
    have hPne : cs.map GConsent.purpose ≠ [] := fun hc => hcs (List.map_eq_nil_iff.1 hc)
    rw [hchar]
    set A := L.any ev with hA
    set P := cs.map GConsent.purpose with hP
    set pe := P.filter (fun p => ep p && A) with hpe
    set pd := P.filter (fun p => !(ep p && A)) with hpd
    set ve := L.filter (fun i => pe.isEmpty || ev i) with hve
    set vd := L.filter (fun i => !(pe.isEmpty || ev i)) with hvd
    have hpnd : (pe ++ pd).Nodup := by
      rw [hpe, hpd]
      exact filter_partition_nodup P _ hnd
    have hvnd : (ve ++ vd).Nodup := by
      rw [hve, hvd]
      exact filter_partition_nodup L _ hLnd
    have hpne : pe ++ pd ≠ [] := by
      rw [hpe, hpd]
      exact filter_partition_ne_nil P _ hPne
    have hvne : ve ++ vd ≠ [] := by
      rw [hve, hvd]
      exact filter_partition_ne_nil L _ hLne
    have hcompat1 : pe = [] → vd = [] := by
      intro hpe0
      rw [hvd]
      apply List.filter_eq_nil_iff.2
      intro a _
      rw [hpe0]
      simp
    have hcompat2 : pe ≠ [] → ve ≠ [] := by
      intro hpe0 hve0
      rw [hve] at hve0
      have hall := List.filter_eq_nil_iff.1 hve0
      have hevf : ∀ i ∈ L, ev i = false := by
        intro i hi
        have hcontra := hall i hi
        cases hevi : ev i
        · rfl
        · exact absurd (by rw [hevi, Bool.or_true]) hcontra
      have hAf : A = false := by
        rw [hA, ← Bool.not_eq_true, List.any_eq_true]
        rintro ⟨x, hx, hevx⟩
        rw [hevf x hx] at hevx
        cases hevx
      apply hpe0
      rw [hpe]
      apply List.filter_eq_nil_iff.2
      intro a _
      rw [hAf, Bool.and_false]
      simp
    rw [fromCompressedLists_canonical pe pd ve vd hpnd hvnd hvne,
      encode_canonicalToken pe pd ve vd hpnd hvnd hpne hvne hcompat1 hcompat2]

/-- C4 counterexample: `patternCexToken` satisfies the claim's
all-purposes-AND'd pattern (with the all-true classification), yet
encode-decode-encode does not preserve the classification — purpose `p` is
enabled in the first encoding and disabled in the second, and vendors `a`,
`b` are both disabled in the first and both enabled in the second. -/
theorem C4_compressed_roundtrip_cex :
    (∀ c ∈ patternCexToken, ∀ v ∈ c.vendors,
      v.status = some ((fun _ => true) c.purpose && (fun _ => true) v.id)) ∧
    "p" ∈ (toCompressedLists patternCexToken).purposesEnabled ∧
    "p" ∉ (toCompressedLists (fromCompressedLists
      (toCompressedLists patternCexToken).purposesEnabled
      (toCompressedLists patternCexToken).purposesDisabled
      (toCompressedLists patternCexToken).vendorsEnabled
      (toCompressedLists patternCexToken).vendorsDisabled)).purposesEnabled ∧
    "a" ∈ (toCompressedLists patternCexToken).vendorsDisabled ∧
    "a" ∈ (toCompressedLists (fromCompressedLists
      (toCompressedLists patternCexToken).purposesEnabled
      (toCompressedLists patternCexToken).purposesDisabled
      (toCompressedLists patternCexToken).vendorsEnabled
      (toCompressedLists patternCexToken).vendorsDisabled)).vendorsEnabled := by
  decide

/-- Witness for `C4_compressed_roundtrip` on the full-matrix token with
vendor `a` enabled and `b` disabled. -/
theorem C4_compressed_roundtrip_witness :
    ((fullMatrixToken.map GConsent.purpose).Nodup ∧
      (∀ c ∈ fullMatrixToken, c.vendors.map GVendor.id = ["a", "b"]) ∧
      (["a", "b"] : List String).Nodup ∧ (["a", "b"] : List String) ≠ [] ∧
      (∀ c ∈ fullMatrixToken, ∀ v ∈ c.vendors,
        v.status = some ((fun _ => true) c.purpose && (fun i => decide (i = "a")) v.id))) ∧
    toCompressedLists (fromCompressedLists
        (toCompressedLists fullMatrixToken).purposesEnabled
        (toCompressedLists fullMatrixToken).purposesDisabled
        (toCompressedLists fullMatrixToken).vendorsEnabled
        (toCompressedLists fullMatrixToken).vendorsDisabled) =
      toCompressedLists fullMatrixToken :=
  ⟨⟨by decide, by decide, by decide, by decide, by decide⟩,
    C4_compressed_roundtrip fullMatrixToken ["a", "b"] (fun _ => true)
      (fun i => decide (i = "a")) (by decide) (by decide) (by decide) (by decide)
      (by decide)⟩

/-- C1 (amended): for a compressed input whose enabled/disabled purpose ids
are pairwise distinct, whose enabled/disabled vendor ids are pairwise
distinct, and which lists at least one vendor, `CWTFromCompressedJSON` builds
exactly the cross-product token: one consent per purpose, enabled purposes
first in listed order, each consent listing enabled vendors before disabled
vendors in listed order, and the recorded status of every (purpose, vendor)
pair is `true` iff the purpose is enabled and the vendor is enabled, `false`
otherwise. -/
theorem C1_decode_cross_product (pe pd ve vd : List String)
    (hp : (pe ++ pd).Nodup) (hv : (ve ++ vd).Nodup) (hne : ve ++ vd ≠ []) :
    CWTFromCompressedJSON (.parsed (compressedWire pe pd ve vd)) =
      .ok (some (mkCWTCompressed jundef jundef jundef jundef
        (canonicalToken (pe.map jstr) (pd.map jstr) (ve.map jstr) (vd.map jstr))
        jundef)) ∧
    ∀ p ∈ pe ++ pd, ∀ v ∈ ve ++ vd,
      recordedStatus
          (canonicalToken (pe.map jstr) (pd.map jstr) (ve.map jstr) (vd.map jstr))
          (jstr p) (jstr v) =
        some (some (decide (p ∈ pe) && decide (v ∈ ve))) := by
  have hp' : (pe.map jstr ++ pd.map jstr).Nodup := by
    rw [← List.map_append]
    exact hp.map jstr_injective
  have hv' : (ve.map jstr ++ vd.map jstr).Nodup := by
    rw [← List.map_append]
    exact hv.map jstr_injective
  have hne' : ve.map jstr ++ vd.map jstr ≠ [] := by
    rw [← List.map_append]
    simpa using hne
  constructor
  · rw [CWTFromCompressedJSON_wire,
      fromCompressedLists_canonical _ _ _ _ hp' hv' hne']
  · intro p hpm v hvm
    have hpm' : jstr p ∈ pe.map jstr ++ pd.map jstr := by
      rw [← List.map_append]
      exact List.mem_map_of_mem _ hpm
    have hvm' : jstr v ∈ ve.map jstr ++ vd.map jstr := by
      rw [← List.map_append]
      exact List.mem_map_of_mem _ hvm
    rw [recordedStatus_canonical _ _ _ _ hp' hv' (jstr p) (jstr v) hpm' hvm',
      decide_eq_decide.2 (List.mem_map_of_injective jstr_injective),
      decide_eq_decide.2 (List.mem_map_of_injective jstr_injective)]

/-- C1 counterexample: as stated over every compressed input, the claim
fails.  With `"p"` listed both enabled and disabled and `"v"` enabled, the
recorded status of `("p", "v")` is `false` although the purpose and the
vendor are both in the enabled lists; and with both vendor arrays empty an
enabled purpose produces no consent entry at all, so the consents are not the
enabled-then-disabled purpose list. -/
theorem C1_decode_cross_product_cex :
    CWTFromCompressedJSON (.parsed (compressedWire ["p"] ["p"] ["v"] [])) =
      .ok (some (mkCWTCompressed jundef jundef jundef jundef
        [⟨jstr "p", [⟨jstr "v", some false⟩]⟩] jundef)) ∧
    ("p" ∈ (["p"] : List String) ∧ "v" ∈ (["v"] : List String) ∧
      recordedStatus [(⟨jstr "p", [⟨jstr "v", some false⟩]⟩ : GConsent JsonValue)]
        (jstr "p") (jstr "v") = some (some false)) ∧
    CWTFromCompressedJSON (.parsed (compressedWire ["p"] [] [] [])) =
      .ok (some (mkCWTCompressed jundef jundef jundef jundef [] jundef)) := by
  exact ⟨rfl, ⟨by decide, by decide, rfl⟩, rfl⟩

/-- Witness for `C1_decode_cross_product` at the specification's own example:
enabled purposes `p1, p2`, disabled `p3`, enabled vendors `v1`, disabled
`v2, v3`. -/
theorem C1_decode_cross_product_witness :
    ((["p1", "p2"] ++ ["p3"] : List String).Nodup ∧
      (["v1"] ++ ["v2", "v3"] : List String).Nodup ∧
      (["v1"] ++ ["v2", "v3"] : List String) ≠ []) ∧
    (CWTFromCompressedJSON
        (.parsed (compressedWire ["p1", "p2"] ["p3"] ["v1"] ["v2", "v3"])) =
      .ok (some (mkCWTCompressed jundef jundef jundef jundef
        (canonicalToken ([ "p1", "p2"].map jstr) (["p3"].map jstr)
          (["v1"].map jstr) (["v2", "v3"].map jstr)) jundef)) ∧
    ∀ p ∈ (["p1", "p2"] ++ ["p3"] : List String),
      ∀ v ∈ (["v1"] ++ ["v2", "v3"] : List String),
        recordedStatus
            (canonicalToken (["p1", "p2"].map jstr) (["p3"].map jstr)
              (["v1"].map jstr) (["v2", "v3"].map jstr)) (jstr p) (jstr v) =
          some (some (decide (p ∈ ["p1", "p2"]) && decide (v ∈ ["v1"])))) :=
  ⟨⟨by decide, by decide, by decide⟩,
    C1_decode_cross_product ["p1", "p2"] ["p3"] ["v1"] ["v2", "v3"]
      (by decide) (by decide) (by decide)⟩

/-! ## Parser lemmas -/

theorem getProp_eq_ok (v : JsonValue) (h1 : v ≠ jnull) (h2 : v ≠ jundef) (k : String) :
    getProp v k = .ok (getPropD v k) := by
  cases v
  · exact absurd rfl h1
  · exact absurd rfl h2
  all_goals rfl

theorem CWTFromJSON_parsed (v : JsonValue) (h1 : v ≠ jnull) (h2 : v ≠ jundef) :
    CWTFromJSON (.parsed v) =
      if truthy (getPropD v "purposes") then .ok none
      else if truthy (getPropD v "vendors") then .ok none
      else .ok (some (mkCWT v)) := by
  simp only [CWTFromJSON, getProp_eq_ok v h1 h2]

theorem CWTFromCompressedJSON_parsed (v : JsonValue) (h1 : v ≠ jnull)
    (h2 : v ≠ jundef) :
    CWTFromCompressedJSON (.parsed v) =
      if truthy (getPropD v "consents") then .ok none
      else if !truthy (getPropD v "purposes") then .ok none
      else if !truthy (getPropD v "vendors") then .ok none
      else if !truthy (getPropD (getPropD v "purposes") "enabled") then .ok none
      else if !truthy (getPropD (getPropD v "purposes") "disabled") then .ok none
      else if !truthy (getPropD (getPropD v "vendors") "enabled") then .ok none
      else if !truthy (getPropD (getPropD v "vendors") "disabled") then .ok none
      else .ok (some (mkCWTCompressed (getPropD v "issuer") (getPropD v "user_id")
        (getPropD v "user_id_type") (getPropD v "user_id_hash_method")
        (fromCompressedLists (enumElems (getPropD (getPropD v "purposes") "enabled"))
          (enumElems (getPropD (getPropD v "purposes") "disabled"))
          (enumElems (getPropD (getPropD v "vendors") "enabled"))
          (enumElems (getPropD (getPropD v "vendors") "disabled")))
        (getPropD v "version"))) := by
  simp only [CWTFromCompressedJSON, getProp_eq_ok v h1 h2]

/-- C5 (amended): `hasConsent` returns false if no consent with the exact
purpose exists; returns true if a consent exists and `vendorId` is not
supplied or is the empty string; otherwise (a non-empty `vendorId`) it looks
up the vendor by exact id, falling back to the wildcard vendor `"*"`, and
returns false when neither exists; once a vendor is resolved it returns true
if `scopeId` is not supplied or empty, and otherwise returns
`hasScope(scopeId, false)` — in particular a vendor holding only the wildcard
scope `"*"` fails any other scope request. -/
theorem C5_hasConsent_resolution (consents : List Consent) (purpose : String)
    (vendorId scopeId : Option String) :
    (consents.find? (fun c => c.purpose == purpose) = none →
      hasConsent consents purpose vendorId scopeId = false) ∧
    (∀ c, consents.find? (fun c => c.purpose == purpose) = some c →
      (strOptFalsy vendorId = true →
        hasConsent consents purpose vendorId scopeId = true) ∧
      (∀ vid, vendorId = some vid → vid ≠ "" →
        (c.getVendor vid = none → c.getVendor "*" = none →
          hasConsent consents purpose vendorId scopeId = false) ∧
        (∀ w, (c.getVendor vid).orElse (fun _ => c.getVendor "*") = some w →
          (strOptFalsy scopeId = true →
            hasConsent consents purpose vendorId scopeId = true) ∧
          (∀ sid, scopeId = some sid → sid ≠ "" →
            hasConsent consents purpose vendorId scopeId =
              w.hasScope sid false)))) ∧
    (∀ w : Vendor, w.scopes = [jstr "*"] → ∀ sid, sid ≠ "*" →
      w.hasScope sid false = false) := by
  refine ⟨?_, ?_, ?_⟩
  · intro hnone
    rw [hasConsent, hnone]
  · intro c hc
    constructor
    · intro hfal
      rw [hasConsent, hc]
      simp [hfal]
    · intro vid hvid hne
      have hfal : strOptFalsy vendorId = false := by
        rw [hvid]
        exact eq_false_of_ne_true (fun h => hne ((String.isEmpty_iff _).1 h))
      constructor
      · intro h1 h2
        rw [hasConsent, hc]
        simp only [hfal, Bool.false_eq_true, if_false]
        rw [hvid]
        simp only [Option.getD_some]
        rw [h1, h2]
        rfl
      · intro w hw
        constructor
        · intro hsfal
          rw [hasConsent, hc]
          simp only [hfal, Bool.false_eq_true, if_false]
          rw [hvid]
          simp only [Option.getD_some]
          rw [hw]
          simp [hsfal]
        · intro sid hsid hsne
          have hsfal : strOptFalsy scopeId = false := by
            rw [hsid]
            exact eq_false_of_ne_true (fun h => hsne ((String.isEmpty_iff _).1 h))
          rw [hasConsent, hc]
          simp only [hfal, Bool.false_eq_true, if_false]
          rw [hvid]
          simp only [Option.getD_some]
          rw [hw]
          simp only [hsfal, Bool.false_eq_true, if_false]
          rw [hsid]
          rfl
  · intro w hw sid hsid
    rw [Vendor.hasScope, hw]
    simp only [Bool.false_and, if_false]
    simp [hsid]

/-- C5 counterexample: `hasConsent` treats a supplied empty-string `vendorId`
(or `scopeId`) as not supplied.  With a consent for `"p"` holding no vendors
at all, `hasConsent("p", "")` returns true although neither the vendor `""`
nor the wildcard vendor exists (the claim's lookup branch demands false); and
with a vendor holding only scope `"s"`, `hasConsent("p", "v", "")` returns
true although `hasScope("", false)` is false. -/
theorem C5_hasConsent_resolution_cex :
    hasConsent [⟨"p", []⟩] "p" (some "") none = true ∧
    Consent.getVendor ⟨"p", []⟩ "" = none ∧
    Consent.getVendor ⟨"p", []⟩ "*" = none ∧
    hasConsent [⟨"p", [⟨"v", [jstr "s"]⟩]⟩] "p" (some "v") (some "") = true ∧
    Vendor.hasScope ⟨"v", [jstr "s"]⟩ "" false = false := by
  decide

/-- Witness for `C5_hasConsent_resolution`: no consent yields false, and a
full (purpose, vendor, scope) query reduces to `hasScope` with wildcard
matching disabled. -/
theorem C5_hasConsent_resolution_witness :
    hasConsent [] "p" none none = false ∧
    hasConsent [(⟨"p", [⟨"v", [jstr "s"]⟩]⟩ : Consent)] "p" (some "v") (some "s") =
      Vendor.hasScope ⟨"v", [jstr "s"]⟩ "s" false := by
  have h1 := C5_hasConsent_resolution [] "p" none none
  have h2 := C5_hasConsent_resolution [⟨"p", [⟨"v", [jstr "s"]⟩]⟩] "p"
    (some "v") (some "s")
  refine ⟨h1.1 rfl, ?_⟩
  have hc := h2.2.1 ⟨"p", [⟨"v", [jstr "s"]⟩]⟩ (by decide)
  have hv := (hc.2 "v" rfl (by decide)).2 ⟨"v", [jstr "s"]⟩ (by decide)
  exact hv.2 "s" rfl (by decide)

/-- C7 (the code evaluated at the failing input): `Consent.fromObject` on an
object with a valid purpose and one malformed vendor entry yields a Consent
whose vendors list holds the `null` placeholder produced by
`Vendor.fromObject`, instead of filtering it out or rejecting the Consent. -/
theorem C7_fromObject_keeps_null_placeholder :
    Consent.fromObject (jobjL [("purpose", jstr "p"), ("vendors", jarrL [jobjL []])]) =
      some ⟨"p", [none]⟩ ∧
    Vendor.fromObject (jobjL []) = none := ⟨rfl, rfl⟩

/-- C8: `addScope` is total and idempotent: a no-op on an absent or empty
scope id and on a scope already present, otherwise an append at the end;
adding the same scope twice to a vendor that lacks it leaves exactly one
occurrence, preserving the existing order. -/
theorem C8_addScope_idempotent (v : Vendor) (o : Option String) (s : String) :
    Vendor.addScope v none = v ∧
    Vendor.addScope v (some "") = v ∧
    (jstr s ∈ v.scopes → Vendor.addScope v (some s) = v) ∧
    (s ≠ "" → jstr s ∉ v.scopes →
      (Vendor.addScope v (some s)).scopes = v.scopes ++ [jstr s]) ∧
    Vendor.addScope (Vendor.addScope v o) o = Vendor.addScope v o ∧
    (s ≠ "" → jstr s ∉ v.scopes →
      (Vendor.addScope (Vendor.addScope v (some s)) (some s)).scopes =
        v.scopes ++ [jstr s] ∧
      (Vendor.addScope (Vendor.addScope v (some s)) (some s)).scopes.count (jstr s) =
        1) := by
  have hmem_add : ∀ (w : Vendor) (t : String), jstr t ∈ w.scopes →
      Vendor.addScope w (some t) = w := by
    intro w t hmem
    rw [Vendor.addScope]
    by_cases ht : strOptFalsy (some t) = true
    · rw [if_pos ht]
    · rw [if_neg ht]
      simp only [Option.getD_some]
      rw [if_pos (by simpa using hmem)]
  have happend : ∀ (w : Vendor) (t : String), t ≠ "" → jstr t ∉ w.scopes →
      (Vendor.addScope w (some t)).scopes = w.scopes ++ [jstr t] := by
    intro w t ht hmem
    rw [Vendor.addScope,
      if_neg (by simpa [strOptFalsy] using fun h => ht ((String.isEmpty_iff _).1 h))]
    simp only [Option.getD_some]
    rw [if_neg (by simpa using hmem)]
  refine ⟨rfl, rfl, fun h => hmem_add v s h, fun hs h => happend v s hs h, ?_, ?_⟩
  · rcases o with _ | t
    · rfl
    · by_cases ht : t = ""
      · subst ht
        rfl
      · by_cases hmem : jstr t ∈ v.scopes
        · rw [hmem_add v t hmem, hmem_add v t hmem]
        · have h1 := happend v t ht hmem
          apply hmem_add
          rw [h1]
          exact List.mem_append_right _ (List.mem_singleton.2 rfl)
  · intro hs hmem
    have h1 := happend v s hs hmem
    have h2 : Vendor.addScope (Vendor.addScope v (some s)) (some s) =
        Vendor.addScope v (some s) := by
      apply hmem_add
      rw [h1]
      exact List.mem_append_right _ (List.mem_singleton.2 rfl)
    rw [h2, h1]
    refine ⟨rfl, ?_⟩
    rw [List.count_append, List.count_eq_zero_of_not_mem hmem,
      List.count_singleton_self]

/-- C6 (amended): both parse functions return null on empty input and on
unparsable JSON.  For any parsed value other than JSON `null`: `CWTFromJSON`
returns null exactly when the object carries a truthy `purposes` or `vendors`
field, and otherwise returns a fully-built token — in particular an object
exhibiting neither wire shape is accepted by `CWTFromJSON` (with default
fields), not rejected; `CWTFromCompressedJSON` returns null exactly when the
object carries a truthy `consents` field or any of `purposes`, `vendors`,
`purposes.enabled/disabled`, `vendors.enabled/disabled` is absent or falsy,
and otherwise returns a fully-built token; an object exhibiting neither shape
is thus rejected by `CWTFromCompressedJSON` only.  On the JSON value `null`
both parsers throw a TypeError instead of returning null. -/
theorem C6_parse_rejection :
    (CWTFromJSON .emptyInput = .ok none ∧ CWTFromJSON .malformed = .ok none ∧
      CWTFromCompressedJSON .emptyInput = .ok none ∧
      CWTFromCompressedJSON .malformed = .ok none) ∧
    (∀ v : JsonValue, v ≠ jnull → v ≠ jundef →
      (CWTFromJSON (.parsed v) = .ok none ↔
        (truthy (getPropD v "purposes") = true ∨
          truthy (getPropD v "vendors") = true)) ∧
      (truthy (getPropD v "purposes") = false →
        truthy (getPropD v "vendors") = false →
        CWTFromJSON (.parsed v) = .ok (some (mkCWT v))) ∧
      (CWTFromCompressedJSON (.parsed v) = .ok none ↔
        (truthy (getPropD v "consents") = true ∨
          truthy (getPropD v "purposes") = false ∨
          truthy (getPropD v "vendors") = false ∨
          truthy (getPropD (getPropD v "purposes") "enabled") = false ∨
          truthy (getPropD (getPropD v "purposes") "disabled") = false ∨
          truthy (getPropD (getPropD v "vendors") "enabled") = false ∨
          truthy (getPropD (getPropD v "vendors") "disabled") = false)) ∧
      (truthy (getPropD v "consents") = false →
        truthy (getPropD v "purposes") = true →
        truthy (getPropD v "vendors") = true →
        truthy (getPropD (getPropD v "purposes") "enabled") = true →
        truthy (getPropD (getPropD v "purposes") "disabled") = true →
        truthy (getPropD (getPropD v "vendors") "enabled") = true →
        truthy (getPropD (getPropD v "vendors") "disabled") = true →
        CWTFromCompressedJSON (.parsed v) =
          .ok (some (mkCWTCompressed (getPropD v "issuer") (getPropD v "user_id")
            (getPropD v "user_id_type") (getPropD v "user_id_hash_method")
            (fromCompressedLists
              (enumElems (getPropD (getPropD v "purposes") "enabled"))
              (enumElems (getPropD (getPropD v "purposes") "disabled"))
              (enumElems (getPropD (getPropD v "vendors") "enabled"))
              (enumElems (getPropD (getPropD v "vendors") "disabled")))
            (getPropD v "version"))))) ∧
    (CWTFromJSON (.parsed jnull) = .thrown ∧
      CWTFromCompressedJSON (.parsed jnull) = .thrown) := by
  refine ⟨⟨rfl, rfl, rfl, rfl⟩, ?_, rfl, rfl⟩
  intro v h1 h2
  refine ⟨?_, ?_, ?_, ?_⟩
  · rw [CWTFromJSON_parsed v h1 h2]
    split_ifs with hp hv <;> simp_all
  · intro hp hv
    rw [CWTFromJSON_parsed v h1 h2, hp, hv]
    rfl
  · rw [CWTFromCompressedJSON_parsed v h1 h2]
    split_ifs <;> simp_all
  · intro hc hp hv hpe hpd hve hvd
    rw [CWTFromCompressedJSON_parsed v h1 h2, hc, hp, hv, hpe, hpd, hve, hvd]
    rfl

/-- C6 counterexample: (1) `CWTFromJSON` on the empty object — which exhibits
neither wire shape — returns a built token rather than null; (2) on JSON
`null` it throws instead of returning null; (3) `CWTFromCompressedJSON`
accepts an object carrying a (falsy) `consents` field; (4) `CWTFromJSON`
accepts an object carrying a falsy `purposes` field. -/
theorem C6_parse_rejection_cex :
    CWTFromJSON (.parsed (jobjL [])) =
      .ok (some ⟨jnull, jnull, jnull, jnull, jarr JsonArr.nil, 1⟩) ∧
    CWTFromJSON (.parsed jnull) = .thrown ∧
    CWTFromCompressedJSON (.parsed (jobjL [("consents", jnull),
      ("purposes", jobjL [("enabled", jarrL []), ("disabled", jarrL [])]),
      ("vendors", jobjL [("enabled", jarrL []), ("disabled", jarrL [])])])) =
      .ok (some ⟨jnull, jnull, jnull, jnull, [], 1⟩) ∧
    CWTFromJSON (.parsed (jobjL [("purposes", jbool false)])) =
      .ok (some ⟨jnull, jnull, jnull, jnull, jarr JsonArr.nil, 1⟩) :=
  ⟨rfl, rfl, rfl, rfl⟩

/-- Witness for `C6_parse_rejection` at a compressed-shaped object: rejected
by `CWTFromJSON`, accepted by `CWTFromCompressedJSON`. -/
theorem C6_parse_rejection_witness :
    CWTFromJSON (.parsed (compressedWire ["p"] [] ["v"] [])) = .ok none ∧
    CWTFromCompressedJSON (.parsed (compressedWire ["p"] [] ["v"] [])) =
      .ok (some (mkCWTCompressed (getPropD (compressedWire ["p"] [] ["v"] []) "issuer")
        (getPropD (compressedWire ["p"] [] ["v"] []) "user_id")
        (getPropD (compressedWire ["p"] [] ["v"] []) "user_id_type")
        (getPropD (compressedWire ["p"] [] ["v"] []) "user_id_hash_method")
        (fromCompressedLists
          (enumElems (getPropD (getPropD (compressedWire ["p"] [] ["v"] []) "purposes")
            "enabled"))
          (enumElems (getPropD (getPropD (compressedWire ["p"] [] ["v"] []) "purposes")
            "disabled"))
          (enumElems (getPropD (getPropD (compressedWire ["p"] [] ["v"] []) "vendors")
            "enabled"))
          (enumElems (getPropD (getPropD (compressedWire ["p"] [] ["v"] []) "vendors")
            "disabled")))
        (getPropD (compressedWire ["p"] [] ["v"] []) "version"))) := by
  have h := C6_parse_rejection
  have h2 := h.2.1 (compressedWire ["p"] [] ["v"] []) (by decide) (by decide)
  exact ⟨h2.1.2 (Or.inl (by decide)),
    h2.2.2.2 (by decide) (by decide) (by decide) (by decide) (by decide) (by decide)
      (by decide)⟩

/-- Witness for `C8_addScope_idempotent` at a vendor with one existing scope. -/
theorem C8_addScope_idempotent_witness :
    Vendor.addScope (⟨"v", [jstr "a"]⟩ : Vendor) none = ⟨"v", [jstr "a"]⟩ ∧
    (Vendor.addScope (Vendor.addScope (⟨"v", [jstr "a"]⟩ : Vendor) (some "b"))
        (some "b")).scopes = [jstr "a", jstr "b"] ∧
    (Vendor.addScope (Vendor.addScope (⟨"v", [jstr "a"]⟩ : Vendor) (some "b"))
        (some "b")).scopes.count (jstr "b") = 1 := by
  have h := C8_addScope_idempotent ⟨"v", [jstr "a"]⟩ none "b"
  have h6 := h.2.2.2.2.2 (by decide) (by decide)
  exact ⟨h.1, h6.1, h6.2⟩

/-- C9: every CWT produced by the constructor, by `CWTFromJSON` or by
`CWTFromCompressedJSON` has version 1; the constructor sets the field
unconditionally, so any version value carried by the input content —
including the one `CWTFromCompressedJSON` explicitly passes through — is
discarded. -/
theorem C9_version_always_one :
    (∀ content : JsonValue, (mkCWT content).version = 1) ∧
    (∀ (issuer uid uidType uidHash versionValue : JsonValue)
        (consents : List (GConsent JsonValue)),
      (mkCWTCompressed issuer uid uidType uidHash consents versionValue).version = 1) ∧
    (∀ (i : ParseInput) (t : CWT), CWTFromJSON i = .ok (some t) → t.version = 1) ∧
    (∀ (i : ParseInput) (t : CWTCompressed),
      CWTFromCompressedJSON i = .ok (some t) → t.version = 1) := by
  refine ⟨fun _ => rfl, fun _ _ _ _ _ _ => rfl, ?_, ?_⟩
  · intro i t h
    cases i with
    | emptyInput => simp [CWTFromJSON] at h
    | malformed => simp [CWTFromJSON] at h
    | parsed v =>
      by_cases h1 : v = jnull
      · subst h1
        simp [CWTFromJSON, getProp] at h
      by_cases h2 : v = jundef
      · subst h2
        simp [CWTFromJSON, getProp] at h
      rw [CWTFromJSON_parsed v h1 h2] at h
      split_ifs at h <;>
        first
          | (simp only [JSResult.ok.injEq, Option.some.injEq] at h
             exact h ▸ rfl)
          | simp at h
  · intro i t h
    cases i with
    | emptyInput => simp [CWTFromCompressedJSON] at h
    | malformed => simp [CWTFromCompressedJSON] at h
    | parsed v =>
      by_cases h1 : v = jnull
      · subst h1
        simp [CWTFromCompressedJSON, getProp] at h
      by_cases h2 : v = jundef
      · subst h2
        simp [CWTFromCompressedJSON, getProp] at h
      rw [CWTFromCompressedJSON_parsed v h1 h2] at h
      split_ifs at h <;>
        first
          | (simp only [JSResult.ok.injEq, Option.some.injEq] at h
             exact h ▸ rfl)
          | simp at h

/-- Witness for `C9_version_always_one`: a wire object carrying `version: 7`
still yields version 1, both through the constructor and through
`CWTFromJSON`. -/
theorem C9_version_always_one_witness :
    (mkCWT (jobjL [("version", jnum 7)])).version = 1 ∧
    (⟨jnull, jnull, jnull, jnull, jarr JsonArr.nil, 1⟩ : CWT).version = 1 :=
  ⟨C9_version_always_one.1 (jobjL [("version", jnum 7)]),
    C9_version_always_one.2.2.1 (.parsed (jobjL [("version", jnum 7)]))
      ⟨jnull, jnull, jnull, jnull, jarr JsonArr.nil, 1⟩ rfl⟩

/-! ## Mutation lemmas for `setConsentStatus` -/

section MutationLemmas

variable {κ : Type} [DecidableEq κ]

theorem setVendorStatus_ids (s : Bool) (vid : κ) (vs : List (GVendor κ)) :
    (setVendorStatus s vid vs).map GVendor.id =
      if vid ∈ vs.map GVendor.id then vs.map GVendor.id
      else vs.map GVendor.id ++ [vid] := by
  induction vs with
  | nil => simp [setVendorStatus]
  | cons v rest ih =>
    by_cases hv : v.id = vid
    · simp [setVendorStatus, hv]
    · simp only [setVendorStatus, if_neg hv, List.map_cons, ih]
      by_cases hmem : vid ∈ rest.map GVendor.id
      · rw [if_pos hmem, if_pos (List.mem_cons_of_mem _ hmem)]
      · rw [if_neg hmem, if_neg ?_, List.cons_append]
        intro hmem2
        rcases List.mem_cons.1 hmem2 with he | he
        · exact hv he.symm
        · exact hmem he

theorem setConsentStatus_purposes (s : Bool) (p vid : κ) (t : List (GConsent κ)) :
    (setConsentStatus s p vid t).map GConsent.purpose =
      if p ∈ t.map GConsent.purpose then t.map GConsent.purpose
      else t.map GConsent.purpose ++ [p] := by
  induction t with
  | nil => simp [setConsentStatus]
  | cons c rest ih =>
    by_cases hc : c.purpose = p
    · simp [setConsentStatus, hc]
    · simp only [setConsentStatus, if_neg hc, List.map_cons, ih]
      by_cases hmem : p ∈ rest.map GConsent.purpose
      · rw [if_pos hmem, if_pos (List.mem_cons_of_mem _ hmem)]
      · rw [if_neg hmem, if_neg ?_, List.cons_append]
        intro hmem2
        rcases List.mem_cons.1 hmem2 with he | he
        · exact hc he.symm
        · exact hmem he

theorem setVendorStatus_find (s : Bool) (vid : κ) (vs : List (GVendor κ)) :
    (setVendorStatus s vid vs).find? (fun v => decide (v.id = vid)) =
      some ⟨vid, some s⟩ := by
  induction vs with
  | nil => simp [setVendorStatus, List.find?]
  | cons v rest ih =>
    by_cases hv : v.id = vid
    · simp [setVendorStatus, hv]
    · simp only [setVendorStatus, if_neg hv]
      rw [List.find?_cons_of_neg _ (by simpa using hv), ih]

theorem find?_setConsentStatus_some (s : Bool) (p vid : κ) (t : List (GConsent κ))
    (c : GConsent κ) (hc : t.find? (fun d => decide (d.purpose = p)) = some c) :
    (setConsentStatus s p vid t).find? (fun d => decide (d.purpose = p)) =
      some { c with vendors := setVendorStatus s vid c.vendors } := by
  induction t with
  | nil => cases hc
  | cons d rest ih =>
    by_cases hd : d.purpose = p
    · rw [List.find?_cons_of_pos _ (by simpa using hd)] at hc
      rcases Option.some.inj hc with rfl
      simp only [setConsentStatus, if_pos hd]
      rw [List.find?_cons_of_pos _ (by simpa using hd)]
    · rw [List.find?_cons_of_neg _ (by simpa using hd)] at hc
      simp only [setConsentStatus, if_neg hd]
      rw [List.find?_cons_of_neg _ (by simpa using hd), ih hc]

theorem recordedStatus_setConsentStatus (s : Bool) (p vid : κ) (t : List (GConsent κ)) :
    recordedStatus (setConsentStatus s p vid t) p vid = some (some s) := by
  induction t with
  | nil => simp [recordedStatus, setConsentStatus, List.find?, setVendorStatus]
  | cons c rest ih =>
    by_cases hc : c.purpose = p
    · have hfind : List.find? (fun d => decide (d.purpose = p))
          ({ purpose := c.purpose, vendors := setVendorStatus s vid c.vendors } :: rest) =
          some { purpose := c.purpose, vendors := setVendorStatus s vid c.vendors } :=
        List.find?_cons_of_pos _ (by simpa using hc)
      simp only [setConsentStatus, if_pos hc, recordedStatus, hfind, setVendorStatus_find]
    · rw [recordedStatus]
      simp only [setConsentStatus, if_neg hc]
      rw [List.find?_cons_of_neg _ (by simpa using hc)]
      exact ih

theorem setVendorStatus_ids_nodup (s : Bool) (vid : κ) (vs : List (GVendor κ))
    (h : (vs.map GVendor.id).Nodup) :
    ((setVendorStatus s vid vs).map GVendor.id).Nodup := by
  rw [setVendorStatus_ids]
  by_cases hmem : vid ∈ vs.map GVendor.id
  · rwa [if_pos hmem]
  · rw [if_neg hmem]
    simp [List.nodup_append, h, hmem]

theorem setConsentStatus_vendors_nodup (s : Bool) (p vid : κ) (t : List (GConsent κ))
    (h : ∀ c ∈ t, (c.vendors.map GVendor.id).Nodup) :
    ∀ c ∈ setConsentStatus s p vid t, (c.vendors.map GVendor.id).Nodup := by
  induction t with
  | nil =>
    intro c hc
    rcases List.mem_singleton.1 hc with rfl
    simp
  | cons d rest ih =>
    intro c hc
    by_cases hd : d.purpose = p
    · simp only [setConsentStatus, if_pos hd] at hc
      rcases List.mem_cons.1 hc with rfl | hc2
      · exact setVendorStatus_ids_nodup s vid d.vendors (h d (List.mem_cons_self _ _))
      · exact h c (List.mem_cons_of_mem _ hc2)
    · simp only [setConsentStatus, if_neg hd] at hc
      rcases List.mem_cons.1 hc with rfl | hc2
      · exact h c (List.mem_cons_self _ _)
      · exact ih (fun d hd => h d (List.mem_cons_of_mem _ hd)) c hc2

end MutationLemmas

/-- C10: on a token whose purposes are pairwise distinct and whose vendor ids
are distinct within each consent, `setConsentStatus` preserves both
uniqueness invariants; the purpose list either stays unchanged or gains `p`
at the end; when no consent for `p` exists the new consent is appended at the
end; when one exists, it keeps its place and its vendor id list either stays
unchanged or gains `vendorId` at the end; and the matched-or-created vendor's
recorded status equals the status argument. -/
theorem C10_setConsentStatus_invariants (t : List (GConsent String)) (s : Bool)
    (p vid : String)
    (h1 : (t.map GConsent.purpose).Nodup)
    (h2 : ∀ c ∈ t, (c.vendors.map GVendor.id).Nodup) :
    ((setConsentStatus s p vid t).map GConsent.purpose).Nodup ∧
    (∀ c ∈ setConsentStatus s p vid t, (c.vendors.map GVendor.id).Nodup) ∧
    ((setConsentStatus s p vid t).map GConsent.purpose = t.map GConsent.purpose ∨
      (setConsentStatus s p vid t).map GConsent.purpose =
        t.map GConsent.purpose ++ [p]) ∧
    (t.find? (fun c => decide (c.purpose = p)) = none →
      setConsentStatus s p vid t = t ++ [⟨p, [⟨vid, some s⟩]⟩]) ∧
    (∀ c, t.find? (fun c => decide (c.purpose = p)) = some c →
      (setConsentStatus s p vid t).find? (fun d => decide (d.purpose = p)) =
        some { c with vendors := setVendorStatus s vid c.vendors } ∧
      ((setVendorStatus s vid c.vendors).map GVendor.id =
          c.vendors.map GVendor.id ∨
        (setVendorStatus s vid c.vendors).map GVendor.id =
          c.vendors.map GVendor.id ++ [vid])) ∧
    recordedStatus (setConsentStatus s p vid t) p vid = some (some s) := by
  refine ⟨?_, setConsentStatus_vendors_nodup s p vid t h2, ?_, ?_, ?_,
    recordedStatus_setConsentStatus s p vid t⟩
  · rw [setConsentStatus_purposes]
    by_cases hmem : p ∈ t.map GConsent.purpose
    · rwa [if_pos hmem]
    · rw [if_neg hmem]
      simp [List.nodup_append, h1, hmem]
  · rw [setConsentStatus_purposes]
    by_cases hmem : p ∈ t.map GConsent.purpose
    · rw [if_pos hmem]
      exact Or.inl rfl
    · rw [if_neg hmem]
      exact Or.inr rfl
  · intro hnone
    apply setConsentStatus_fresh
    intro c hc he
    have := List.find?_eq_none.1 hnone c hc
    simp [he] at this
  · intro c hc
    refine ⟨find?_setConsentStatus_some s p vid t c hc, ?_⟩
    rw [setVendorStatus_ids]
    by_cases hmem : vid ∈ c.vendors.map GVendor.id
    · rw [if_pos hmem]
      exact Or.inl rfl
    · rw [if_neg hmem]
      exact Or.inr rfl

/-- Witness for `C10_setConsentStatus_invariants` on a one-consent token:
setting a status for a fresh purpose appends one consent at the end with the
requested status recorded. -/
theorem C10_setConsentStatus_invariants_witness :
    (((setConsentStatus true "q" "w" [(⟨"p", [⟨"v", some false⟩]⟩ : GConsent String)]).map
        GConsent.purpose).Nodup) ∧
    setConsentStatus true "q" "w" [(⟨"p", [⟨"v", some false⟩]⟩ : GConsent String)] =
      [⟨"p", [⟨"v", some false⟩]⟩, ⟨"q", [⟨"w", some true⟩]⟩] ∧
    recordedStatus (setConsentStatus true "q" "w"
      [(⟨"p", [⟨"v", some false⟩]⟩ : GConsent String)]) "q" "w" = some (some true) := by
  have h := C10_setConsentStatus_invariants [⟨"p", [⟨"v", some false⟩]⟩] true "q" "w"
    (by decide) (by decide)
  exact ⟨h.1, (h.2.2.2.1 (by decide)).trans (by decide), h.2.2.2.2.2⟩

end Cwt
